import Mathlib

/-
Verification development for the crimedoku-solver repository.

This file gives a shallow embedding, in Lean 4, of the core of the
"Murdoku" puzzle solver: the grid and cell model (src/models/cell.py,
src/grid.py), the placement state (src/models/state.py), the clue
predicate library (src/clues/*.py), the brute-force permutation solver
(src/solver/brute_force.py) and the domain-reduced backtracking solver
(src/solver/backtracking.py), together with theorems settling the
specification claims about them.

Modelling conventions:
- Python lists become Lean lists; Python frozensets of object tags become
  lists queried only through membership; Python dicts built by
  comprehension become fold-built lookup functions with the same
  last-binding-wins semantics.
- Python integer indexing that the solvers only ever perform in bounds is
  modelled with getD (a default that is never observed under the stated
  well-formedness hypotheses); the public Grid.get_cell contract, where
  out-of-bounds behaviour itself is under scrutiny, is modelled exactly,
  including Python's negative-index wrap-around, as an Option-valued
  function (none = IndexError).
- itertools.permutations is modelled by List.permutations' (the
  structurally recursive permutation enumerator, so that concrete
  instances reduce in the kernel).  The two solvers consume the same
  enumerator, and every theorem below is stated at the level of multisets
  (List.Perm) or counts, so the enumeration order itself is never relied
  upon.
- The clue closures of the source carry a generated __name__ string that
  the solvers re-parse with anchored regular expressions; since those
  names are produced by the factories themselves, a clue is faithfully
  represented as a tagged value (an inductive of the factory kinds with
  their arguments), and the regex dispatch becomes a match on the tag.
  The one lossy step of the source pipeline is kept: the domain filter
  recovers the object argument by looking the lowercased enum member name
  up in the value-keyed object map, which fails for VOID (member name
  "VOID", value "__void__"); this is modelled by objFilterLookup below.
-/

namespace Murdoku

/-- Object tags that can appear in a cell, from ObjectType in
src/models/cell.py.  Each member carries a blocks flag and a lowercase
value string; the enum member name is also needed because clue names
embed it. -/
inductive ObjectType where
  | window | bed | carpet | plant | table | chair | tv | bookshelf
  | cash_register | rubbish | rock | computer | gift | box | void
deriving DecidableEq, Repr

/-- The blocks flag of each ObjectType member (True = no person may stand
on a cell containing it). -/
def ObjectType.blocks : ObjectType → Bool
  | .window => false
  | .bed => false
  | .carpet => false
  | .plant => true
  | .table => true
  | .chair => false
  | .tv => true
  | .bookshelf => true
  | .cash_register => false
  | .rubbish => true
  | .rock => true
  | .computer => true
  | .gift => false
  | .box => true
  | .void => true

/-- The value string of each ObjectType member. -/
def ObjectType.value : ObjectType → String
  | .window => "window"
  | .bed => "bed"
  | .carpet => "carpet"
  | .plant => "plant"
  | .table => "table"
  | .chair => "chair"
  | .tv => "tv"
  | .bookshelf => "bookshelf"
  | .cash_register => "cash_register"
  | .rubbish => "rubbish"
  | .rock => "rock"
  | .computer => "computer"
  | .gift => "gift"
  | .box => "box"
  | .void => "__void__"

/-- The Python enum member name of each ObjectType member (uppercase). -/
def ObjectType.memberName : ObjectType → String
  | .window => "WINDOW"
  | .bed => "BED"
  | .carpet => "CARPET"
  | .plant => "PLANT"
  | .table => "TABLE"
  | .chair => "CHAIR"
  | .tv => "TV"
  | .bookshelf => "BOOKSHELF"
  | .cash_register => "CASH_REGISTER"
  | .rubbish => "RUBBISH"
  | .rock => "ROCK"
  | .computer => "COMPUTER"
  | .gift => "GIFT"
  | .box => "BOX"
  | .void => "VOID"

/-- A list of every ObjectType member, mirroring iteration over the
Python enum when _OBJ_MAP is built. -/
def ObjectType.members : List ObjectType :=
  [.window, .bed, .carpet, .plant, .table, .chair, .tv, .bookshelf,
   .cash_register, .rubbish, .rock, .computer, .gift, .box, .void]

/-- The result of Python's str.lower() on each member name (tabulated
directly because String.toLower does not reduce in the kernel). -/
def ObjectType.lowerMemberName : ObjectType → String
  | .window => "window"
  | .bed => "bed"
  | .carpet => "carpet"
  | .plant => "plant"
  | .table => "table"
  | .chair => "chair"
  | .tv => "tv"
  | .bookshelf => "bookshelf"
  | .cash_register => "cash_register"
  | .rubbish => "rubbish"
  | .rock => "rock"
  | .computer => "computer"
  | .gift => "gift"
  | .box => "box"
  | .void => "void"

/-- The _OBJ_MAP dictionary of src/solver/backtracking.py: value string to
ObjectType member. -/
def objMap (s : String) : Option ObjectType :=
  ObjectType.members.foldl (fun acc o => if o.value = s then some o else acc) none

/-- The object lookup performed by the domain filter of the backtracking
solver: a clue name embeds obj.name (the uppercase member name), and the
filter evaluates _OBJ_MAP.get(name.lower()).  This round trip returns the
original member for every tag except VOID, whose lowercased member name
"void" is not a value string, so the lookup yields none. -/
def objFilterLookup (o : ObjectType) : Option ObjectType :=
  objMap o.lowerMemberName

/-- objFilterLookup recovers every member except VOID. -/
theorem objFilterLookup_eq (o : ObjectType) (h : o ≠ ObjectType.void) :
    objFilterLookup o = some o := by
  cases o <;> first | decide | exact absurd rfl h

/-- objFilterLookup loses the VOID member. -/
theorem objFilterLookup_void : objFilterLookup ObjectType.void = none := by decide

/-- A grid cell, from Cell in src/models/cell.py.  The frozenset of
objects is modelled as a list queried only through membership. -/
structure Cell where
  row : Nat
  col : Nat
  room_id : String
  objects : List ObjectType
deriving DecidableEq, Repr

/-- Cell.is_blocked: true iff any object in the cell blocks occupancy. -/
def Cell.is_blocked (c : Cell) : Bool :=
  c.objects.any ObjectType.blocks

/-- Cell.has_object: membership in the cell's object set. -/
def Cell.has_object (c : Cell) (o : ObjectType) : Bool :=
  c.objects.contains o

/-- Membership test against an optional object, as performed by the domain
filter after the lossy name lookup: obj in cell.objects where obj may be
Python None (none here); None is never a member of the object set. -/
def Cell.has_object_opt (c : Cell) : Option ObjectType → Bool
  | none => false
  | some o => c.has_object o

/-- The grid, from Grid in src/grid.py: a row-major matrix of cells. -/
structure Grid where
  cells : List (List Cell)
deriving DecidableEq, Repr

/-- Grid.n_rows. -/
def Grid.n_rows (g : Grid) : Nat := g.cells.length

/-- Grid.n_cols: the length of the first row (0 for an empty grid). -/
def Grid.n_cols (g : Grid) : Nat := (g.cells.headD []).length

/-- Python indexing into a list: in-range nonnegative indices select
directly, negative indices within -len..-1 wrap from the end, anything
else raises IndexError (modelled as none). -/
def pyIdx {α : Type} (l : List α) (i : Int) : Option α :=
  if 0 ≤ i ∧ i < l.length then l.get? i.toNat
  else if -(l.length : Int) ≤ i ∧ i < 0 then l.get? (l.length - (-i).toNat)
  else none

/-- Grid.get_cell with Python's exact list-indexing semantics, including
negative-index wrap-around; none models an IndexError. -/
def Grid.get_cell (g : Grid) (row col : Int) : Option Cell :=
  (pyIdx g.cells row).bind (fun r => pyIdx r col)

/-- Total in-bounds cell access used internally when indices are known to
be in range (the default cell is never observed under the well-formedness
hypotheses of the theorems below). -/
def Grid.cellAt (g : Grid) (row col : Nat) : Cell :=
  ((g.cells.getD row []).getD col (Cell.mk 0 0 "" []))

/-- Grid.all_cells: row-major enumeration of every cell. -/
def Grid.all_cells (g : Grid) : List Cell :=
  (List.range g.n_rows).flatMap (fun r =>
    (List.range g.n_cols).map (fun c => g.cellAt r c))

/-- Grid.valid_cells: the non-blocked cells. -/
def Grid.valid_cells (g : Grid) : List Cell :=
  g.all_cells.filter (fun c => !c.is_blocked)

/-- Grid.cells_with_object. -/
def Grid.cells_with_object (g : Grid) (o : ObjectType) : List Cell :=
  g.all_cells.filter (fun c => c.has_object o)

/-- Grid.cells_in_room. -/
def Grid.cells_in_room (g : Grid) (room : String) : List Cell :=
  g.all_cells.filter (fun c => c.room_id = room)

/-- The fixed direction list (-1,0),(1,0),(0,-1),(0,1) used by
Grid.neighbors and by several clues. -/
def orthoDirs : List (Int × Int) := [(-1, 0), (1, 0), (0, -1), (0, 1)]

/-- Grid.neighbors: the in-bounds 4-directional neighbors of (row, col). -/
def Grid.neighbors (g : Grid) (row col : Nat) : List Cell :=
  orthoDirs.filterMap (fun d =>
    let nr : Int := (row : Int) + d.1
    let nc : Int := (col : Int) + d.2
    if 0 ≤ nr ∧ nr < g.n_rows ∧ 0 ≤ nc ∧ nc < g.n_cols then
      some (g.cellAt nr.toNat nc.toNat)
    else none)

/-- Structural well-formedness of a grid: every row has n_cols cells and
the cell stored at position (r, c) carries coordinates (r, c).  The
loader (src/loading/parser.py) establishes exactly this shape. -/
def Grid.wf (g : Grid) : Bool :=
  g.cells.all (fun rw => rw.length = g.n_cols) &&
    (List.range g.n_rows).all (fun r =>
      (List.range g.n_cols).all (fun c =>
        (g.cellAt r c).row = r && (g.cellAt r c).col = c))

/-- A candidate placement of all people on the grid, from GameState in
src/models/state.py.  The constructor stores its arguments verbatim; it
performs no structural validation. -/
structure GameState where
  row_order : List String
  col_perm : List Nat
  grid : Grid
deriving Repr

/-- Lookup in a Python dictionary represented by its bindings in
insertion order: the fold makes later bindings overwrite earlier ones,
exactly as repeated dict insertion does. -/
def dictLookup {α β : Type} [DecidableEq α] (l : List (α × β)) (k : α) : Option β :=
  l.foldl (fun acc e => if e.1 = k then some e.2 else acc) none

/-- The _pos dictionary of GameState.__init__: person row_order at index i
maps to (i, col_perm at index i), later bindings overwriting earlier ones
exactly as in the Python dict comprehension.  none models the KeyError a
lookup of an unplaced person would raise. -/
def GameState.position? (st : GameState) (person : String) : Option (Nat × Nat) :=
  dictLookup
    (st.row_order.enum.map (fun ip => (ip.2, (ip.1, st.col_perm.getD ip.1 0))))
    person

/-- GameState.position, totalised with a default that is never observed
when the person is placed (the hypotheses of every theorem below
guarantee this). -/
def GameState.position (st : GameState) (person : String) : Nat × Nat :=
  (st.position? person).getD (0, 0)

/-- GameState.cell_of. -/
def GameState.cell_of (st : GameState) (person : String) : Cell :=
  st.grid.cellAt (st.position person).1 (st.position person).2

/-- GameState.room_of. -/
def GameState.room_of (st : GameState) (person : String) : String :=
  (st.cell_of person).room_id

/-- GameState.people_in_room: the people of row_order, in row order, whose
room is room_id. -/
def GameState.people_in_room (st : GameState) (room : String) : List String :=
  st.row_order.filter (fun p => st.room_of p = room)

/-- GameState.people_on_object. -/
def GameState.people_on_object (st : GameState) (o : ObjectType) : List String :=
  st.row_order.filter (fun p => (st.cell_of p).has_object o)

/-- The is_wall helper of src/clues/base.py: (r, c) is a wall relative to
a room iff it is out of bounds or its cell belongs to a different room. -/
def is_wall (r c : Int) (g : Grid) (room : String) : Bool :=
  if r < 0 ∨ r ≥ g.n_rows ∨ c < 0 ∨ c ≥ g.n_cols then true
  else (g.cellAt r.toNat c.toNat).room_id ≠ room

/-- The _SEQUENTIAL_DIR_PAIRS list of src/clues/base.py: the four
90-degree-adjacent direction pairs tested by in_corner. -/
def seqDirPairs : List ((Int × Int) × (Int × Int)) :=
  [((-1, 0), (0, 1)), ((0, 1), (1, 0)), ((1, 0), (0, -1)), ((0, -1), (-1, 0))]

/-- A clue, as constructed by the factories of src/clues/.  In the source
each factory returns a closure bundled with a generated __name__ string
encoding the factory and its arguments; the pair is represented here as a
tagged value whose tag and fields are exactly what that name encodes. -/
inductive Clue where
  | in_room (person room : String) (invert : Bool)
  | on_object (person : String) (obj : ObjectType) (invert : Bool)
  | only_on_object (person : String) (obj : ObjectType)
  | only_one_person_on (obj : ObjectType)
  | next_to_object (person : String) (obj : ObjectType) (invert : Bool)
  | in_corner (person : String)
  | not_next_to_wall (person : String)
  | below_person (person target : String)
  | above_person (person target : String)
  | at_column (person : String) (col : Nat)
  | alone_with_murderer (victim : String)
  | with_person (person target : String) (invert : Bool)
  | alone_in_room (person room : String)
  | only_with_person (person target : String)
  | left_of (person : String) (obj : ObjectType) (different_room : Bool)
  | same_column_as_object (person : String) (obj : ObjectType) (different_room : Bool)
deriving DecidableEq, Repr

/-- Clue evaluation against a placement: each arm is the closure body of
the corresponding factory in src/clues/. -/
def Clue.eval (st : GameState) : Clue → Bool
  | .in_room p room invert =>
      let result := st.room_of p = room
      if invert then !result else result
  | .on_object p obj invert =>
      let result := (st.cell_of p).has_object obj
      if invert then !result else result
  | .only_on_object p obj =>
      st.people_on_object obj = [p]
  | .only_one_person_on obj =>
      (st.people_on_object obj).length ≤ 1
  | .next_to_object p obj invert =>
      let rc := st.position p
      let result := (st.grid.neighbors rc.1 rc.2).any
        (fun n => n.has_object obj && n.room_id = st.room_of p)
      if invert then !result else result
  | .in_corner p =>
      let rc := st.position p
      let room := st.room_of p
      seqDirPairs.any (fun d =>
        is_wall (d.1.1 + rc.1) (d.1.2 + rc.2) st.grid room &&
          is_wall (d.2.1 + rc.1) (d.2.2 + rc.2) st.grid room)
  | .not_next_to_wall p =>
      let rc := st.position p
      !(orthoDirs.any (fun d => is_wall (rc.1 + d.1) (rc.2 + d.2) st.grid (st.room_of p)))
  | .below_person p t =>
      (st.position p).1 > (st.position t).1
  | .above_person p t =>
      (st.position p).1 < (st.position t).1
  | .at_column p col =>
      (st.position p).2 = col
  | .alone_with_murderer v =>
      (st.people_in_room (st.room_of v)).length = 2
  | .with_person p t invert =>
      let result := st.room_of p = st.room_of t
      if invert then !result else result
  | .alone_in_room p room =>
      if st.room_of p ≠ room then false
      else st.people_in_room room = [p]
  | .only_with_person p t =>
      (st.people_in_room (st.room_of p)).toFinset = ({p, t} : Finset String)
  | .left_of p obj different_room =>
      let pCol := (st.position p).2
      let pRoom := st.room_of p
      (st.grid.cells_with_object obj).any (fun cell =>
        pCol < cell.col &&
          (if different_room then !(cell.room_id = pRoom) else cell.room_id = pRoom))
  | .same_column_as_object p obj different_room =>
      let pCol := (st.position p).2
      let pRoom := st.room_of p
      (st.grid.cells_with_object obj).any (fun cell =>
        cell.col = pCol &&
          (if different_room then !(cell.room_id = pRoom) else cell.room_id = pRoom))

/-- A puzzle, from src/models/puzzle.py. -/
structure Puzzle where
  grid : Grid
  people : List String
  victim : String
  clues : List Clue

/-- A solved placement, from Solution in src/solver/base.py: the positions
dict is kept in puzzle.people insertion order. -/
structure Solution where
  positions : List (String × Nat × Nat)
  murderer : String
deriving DecidableEq, Repr

/-- The payload of MultipleSolutionsError: one (murderer, positions) pair
per discovered solution. -/
def Solution.payload (s : Solution) : String × List (String × Nat × Nat) :=
  (s.murderer, s.positions)

/-- The two error conditions a solve can end in, from src/solver/base.py. -/
inductive SolveError where
  | noSolution
  | multipleSolutions (solutions : List (String × List (String × Nat × Nat)))
deriving DecidableEq, Repr

/-- The outcome of a call to solve: the unique solution, or one of the
two raised error conditions. -/
inductive SolveResult where
  | ok (s : Solution)
  | error (e : SolveError)
deriving DecidableEq, Repr

/-- The _parse_constraints helper shared verbatim by both solvers: walk
the clue list and collect (person, target) pairs of above_person and
below_person clues and, as a dictionary represented by its binding list,
the at_column assignments.  In the source this is done by regex-matching
the generated clue names; the regexes recover exactly the tag and
arguments represented here. -/
def parseConstraints (clues : List Clue) :
    List (String × String) × List (String × String) × List (String × Nat) :=
  clues.foldl
    (fun acc c =>
      match c with
      | .above_person p t => (acc.1 ++ [(p, t)], acc.2.1, acc.2.2)
      | .below_person p t => (acc.1, acc.2.1 ++ [(p, t)], acc.2.2)
      | .at_column p col => (acc.1, acc.2.1, acc.2.2 ++ [(p, col)])
      | _ => acc)
    ([], [], [])

/-- The ro_idx dictionary both solvers build per row order: person to row
index, later bindings overwriting earlier ones. -/
def roIdx (ro : List String) (p : String) : Option Nat :=
  dictLookup (ro.enum.map (fun ip => (ip.2, ip.1))) p

/-- The _row_order_valid check shared verbatim by both solvers: reject a
row order that violates any above_person or below_person constraint.
Missing persons are totalised with row 0; every theorem below assumes
constraint persons are among the placed people, matching the KeyError-free
domain of the source. -/
def rowOrderValid (above below : List (String × String)) (ro : List String) : Bool :=
  !(above.any (fun pt => (roIdx ro pt.1).getD 0 ≥ (roIdx ro pt.2).getD 0)) &&
    !(below.any (fun pt => (roIdx ro pt.1).getD 0 ≤ (roIdx ro pt.2).getD 0))

/-- The leaf evaluation shared by Solver._extract_solution and
BacktrackingSolver._try_solution: build the state, require every clue to
pass, apply the murder rule (victim's room holds exactly 2 people), and
record the solution with the first non-victim room member as murderer and
the positions of all people in puzzle.people order. -/
def extractSolution (pz : Puzzle) (ro : List String) (cp : List Nat) : Option Solution :=
  let st : GameState := ⟨ro, cp, pz.grid⟩
  if !(pz.clues.all (fun c => c.eval st)) then none
  else
    let victimRoom := st.room_of pz.victim
    let members := st.people_in_room victimRoom
    if members.length ≠ 2 then none
    else
      let murderer := (members.find? (fun p => p ≠ pz.victim)).getD ""
      some ⟨pz.people.map (fun p => (p, st.position p)), murderer⟩

/-- Solver._blocked_placement of the brute-force solver: some person
stands on a blocked cell. -/
def blockedPlacement (g : Grid) (cp : List Nat) : Bool :=
  cp.enum.any (fun rc => (g.cellAt rc.1 rc.2).is_blocked)

/-- The fixed-row assignment pass at the head of Solver._col_perms: walk
the row order (the accumulator i is the row index of the enumerate loop),
look each person up in the at_column dictionary, abort (none) when two
people demand an already-taken column, and otherwise collect (row, column)
pairs in ascending row order. -/
def buildFixedGo (colFixed : List (String × Nat)) :
    List String → Nat → List (Nat × Nat) → Option (List (Nat × Nat))
  | [], _, fixed => some fixed
  | p :: rest, i, fixed =>
      match dictLookup colFixed p with
      | none => buildFixedGo colFixed rest (i + 1) fixed
      | some col =>
          if (fixed.map Prod.snd).contains col then none
          else buildFixedGo colFixed rest (i + 1) (fixed ++ [(i, col)])

/-- Solver._col_perms fixed-assignment pass over a whole row order. -/
def buildFixed (colFixed : List (String × Nat)) (ro : List String) :
    Option (List (Nat × Nat)) :=
  buildFixedGo colFixed ro 0 []

/-- The array-assembly step of Solver._col_perms: start from [0] * n,
write the fixed columns at their rows, then write the permuted free
columns at the free rows in order. -/
def buildColPerm (n : Nat) (fixed : List (Nat × Nat)) (freeRows perm : List Nat) :
    List Nat :=
  let afterFixed := fixed.foldl (fun acc rc => acc.set rc.1 rc.2) (List.replicate n 0)
  (freeRows.zip perm).foldl (fun acc rc => acc.set rc.1 rc.2) afterFixed

/-- Solver._col_perms: all column permutations of range(n) consistent with
the at_column constraints; the full permutation list when the at_column
dictionary is empty. -/
def colPerms (colFixed : List (String × Nat)) (ro : List String) : List (List Nat) :=
  let n := ro.length
  if colFixed.isEmpty then (List.range n).permutations'
  else
    match buildFixed colFixed ro with
    | none => []
    | some fixed =>
        let fixedCols := fixed.map Prod.snd
        let freeRows := (List.range n).filter (fun r => !(fixed.map Prod.fst).contains r)
        let freeCols := (List.range n).filter (fun c => !fixedCols.contains c)
        freeCols.permutations'.map (fun perm => buildColPerm n fixed freeRows perm)

/-- The solutions the brute-force Solver.solve accumulates, in enumeration
order: over pruned row orders, over consistent column permutations, skip
blocked placements and keep every placement the leaf evaluation accepts. -/
def bfFound (pz : Puzzle) : List Solution :=
  let pc := parseConstraints pz.clues
  ((pz.people.permutations').filter (rowOrderValid pc.1 pc.2.1)).flatMap (fun ro =>
    ((colPerms pc.2.2 ro).filter (fun cp => !blockedPlacement pz.grid cp)).filterMap
      (extractSolution pz ro))

/-- The _finalize classifier shared by both solvers: no solution found is
the NoSolution condition, a unique solution is returned, several raise
MultipleSolutions carrying every discovered (murderer, positions) pair. -/
def finalize (found : List Solution) : SolveResult :=
  match found with
  | [] => .error .noSolution
  | [s] => .ok s
  | _ => .error (.multipleSolutions (found.map Solution.payload))

/-- Solver.solve of src/solver/brute_force.py. -/
def bfSolve (pz : Puzzle) : SolveResult :=
  finalize (bfFound pz)

/-- The _is_corner cell filter of the backtracking solver. -/
def isCorner (g : Grid) (cell : Cell) : Bool :=
  seqDirPairs.any (fun d =>
    is_wall ((cell.row : Int) + d.1.1) ((cell.col : Int) + d.1.2) g cell.room_id &&
      is_wall ((cell.row : Int) + d.2.1) ((cell.col : Int) + d.2.2) g cell.room_id)

/-- The _is_interior cell filter of the backtracking solver. -/
def isInterior (g : Grid) (cell : Cell) : Bool :=
  !(orthoDirs.any (fun d =>
    is_wall ((cell.row : Int) + d.1) ((cell.col : Int) + d.2) g cell.room_id))

/-- The _has_neighbor_with_object cell filter of the backtracking solver;
the object argument is the possibly-failed name lookup. -/
def hasNeighborWithObject (g : Grid) (cell : Cell) (obj : Option ObjectType) : Bool :=
  (g.neighbors cell.row cell.col).any
    (fun n => n.room_id = cell.room_id && n.has_object_opt obj)

/-- One application of BacktrackingSolver._apply_domain_filter: narrow the
subject person's candidate cells when the clue is one of the ten
name-parseable single-person patterns (the person must be a dictionary
key, i.e. one of the puzzle's people); leave the candidates unchanged
otherwise.  Object arguments go through the lossy objFilterLookup exactly
as the source recovers them from the clue name. -/
def domainFilterStep (g : Grid) (people : List String) (cand : String → List Cell) :
    Clue → String → List Cell
  | .at_column p col =>
      fun q => if q = p ∧ p ∈ people
        then (cand q).filter (fun cell => cell.col = col) else cand q
  | .in_room p room false =>
      fun q => if q = p ∧ p ∈ people
        then (cand q).filter (fun cell => cell.room_id = room) else cand q
  | .on_object p obj false =>
      fun q => if q = p ∧ p ∈ people
        then (cand q).filter (fun cell => cell.has_object_opt (objFilterLookup obj))
        else cand q
  | .on_object p obj true =>
      fun q => if q = p ∧ p ∈ people
        then (cand q).filter (fun cell => !cell.has_object_opt (objFilterLookup obj))
        else cand q
  | .only_on_object p obj =>
      fun q => if q = p ∧ p ∈ people
        then (cand q).filter (fun cell => cell.has_object_opt (objFilterLookup obj))
        else cand q
  | .next_to_object p obj false =>
      fun q => if q = p ∧ p ∈ people
        then (cand q).filter (fun cell => hasNeighborWithObject g cell (objFilterLookup obj))
        else cand q
  | .next_to_object p obj true =>
      fun q => if q = p ∧ p ∈ people
        then (cand q).filter (fun cell => !hasNeighborWithObject g cell (objFilterLookup obj))
        else cand q
  | .in_corner p =>
      fun q => if q = p ∧ p ∈ people
        then (cand q).filter (fun cell => isCorner g cell) else cand q
  | .not_next_to_wall p =>
      fun q => if q = p ∧ p ∈ people
        then (cand q).filter (fun cell => isInterior g cell) else cand q
  | .alone_in_room p room =>
      fun q => if q = p ∧ p ∈ people
        then (cand q).filter (fun cell => cell.room_id = room) else cand q
  | _ => cand

/-- BacktrackingSolver._build_candidate_cells: start every person at the
grid's valid cells and run every clue through the domain filter. -/
def buildCandidates (pz : Puzzle) : String → List Cell :=
  pz.clues.foldl (fun cand c => domainFilterStep pz.grid pz.people cand c)
    (fun _ => pz.grid.valid_cells)

/-- BacktrackingSolver._build_candidate_cols, as a lookup: the set of
columns of the person's candidate cells lying in the given row (dedup
models the set; a row index outside the grid yields the empty default). -/
def candidateCols (cand : String → List Cell) (p : String) (r : Nat) : List Nat :=
  (((cand p).filter (fun cell => cell.row = r)).map Cell.col).dedup

/-- The recursive column backtracking of BacktrackingSolver.solve,
returning the complete column assignments its leaves reach, in search
order.  The recursion argument is the number of rows still to fill
(n - row_idx in the source, where the leaf test is row_idx == n); i is
row_idx, used is the used_cols set of the branch, pre the columns already
assigned to rows 0..i-1. -/
def btGo (cand : String → Nat → List Nat) (ro : List String) :
    Nat → Nat → List Nat → List Nat → List (List Nat)
  | 0, _, _, pre => [pre]
  | fuel + 1, i, used, pre =>
      ((cand (ro.getD i "") i).filter (fun col => !used.contains col)).flatMap
        (fun col => btGo cand ro fuel (i + 1) (col :: used) (pre ++ [col]))

/-- The dedup'd per-person, per-row candidate columns of a puzzle. -/
def puzzleCandCols (pz : Puzzle) : String → Nat → List Nat :=
  candidateCols (buildCandidates pz)

/-- The solutions BacktrackingSolver.solve accumulates, in search order:
over pruned row orders, every complete column assignment the backtracking
reaches is leaf-evaluated by _try_solution. -/
def btFound (pz : Puzzle) : List Solution :=
  let pc := parseConstraints pz.clues
  let cc := puzzleCandCols pz
  let n := pz.people.length
  ((pz.people.permutations').filter (rowOrderValid pc.1 pc.2.1)).flatMap (fun ro =>
    (btGo cc ro n 0 [] []).filterMap (extractSolution pz ro))

/-- BacktrackingSolver.solve of src/solver/backtracking.py. -/
def btSolve (pz : Puzzle) : SolveResult :=
  finalize (btFound pz)

/-- A fuel-limited rendition of the backtrack recursion with the leaf test
of the source (row_idx == n): none signals that the fuel ran out with the
recursion still pending.  Used to state that the search recursion depth
is bounded by the number of people. -/
def btGoF (cand : String → Nat → List Nat) (ro : List String) (n : Nat) :
    Nat → Nat → List Nat → List Nat → Option (List (List Nat))
  | 0, _, _, _ => none
  | fuel + 1, i, used, pre =>
      if i = n then some [pre]
      else
        (((cand (ro.getD i "") i).filter (fun col => !used.contains col)).mapM
          (fun col => btGoF cand ro n fuel (i + 1) (col :: used) (pre ++ [col]))).map
          List.flatten

/-! Concrete example grids and puzzles used by counterexamples and
witnesses below. -/

/-- A 2 by 2 single-room grid of empty cells. -/
def exGrid2x2 : Grid :=
  ⟨[[⟨0, 0, "room", []⟩, ⟨0, 1, "room", []⟩],
    [⟨1, 0, "room", []⟩, ⟨1, 1, "room", []⟩]]⟩

/-- Two people, no clues, on the 2 by 2 single-room grid. -/
def exPuzzle2x2 : Puzzle := ⟨exGrid2x2, ["Alice", "Bob"], "Alice", []⟩

/-- A 2 by 3 single-room grid of empty cells: wider than the number of
people of exPuzzle2x3. -/
def exGrid2x3 : Grid :=
  ⟨[[⟨0, 0, "room", []⟩, ⟨0, 1, "room", []⟩, ⟨0, 2, "room", []⟩],
    [⟨1, 0, "room", []⟩, ⟨1, 1, "room", []⟩, ⟨1, 2, "room", []⟩]]⟩

/-- Two people, no clues, on the 2 by 3 single-room grid. -/
def exPuzzle2x3 : Puzzle := ⟨exGrid2x3, ["Alice", "Bob"], "Alice", []⟩

/-- A 1 by 1 grid with a single empty cell. -/
def exGrid1x1 : Grid := ⟨[[⟨0, 0, "r", []⟩]]⟩

/-- A 1 by 2 grid whose second cell carries the synthetic VOID tag but
sits in the ordinary room "a". -/
def exGridVoid : Grid := ⟨[[⟨0, 0, "a", []⟩, ⟨0, 1, "a", [.void]⟩]]⟩

/-- One person constrained to stand next to a VOID-tagged cell. -/
def exPuzzleVoid : Puzzle :=
  ⟨exGridVoid, ["p"], "p", [.next_to_object "p" .void false]⟩

/-- A 3 by 3 single-room grid of empty cells. -/
def exGrid3x3 : Grid :=
  ⟨(List.range 3).map (fun r => (List.range 3).map (fun c => ⟨r, c, "R", []⟩))⟩

/-! Basic lemmas about the dictionary-lookup fold. -/

/-- Folding the lookup step from an arbitrary accumulator: the result is
the dictionary lookup when some binding matches, the accumulator
otherwise. -/
theorem dictLookup_foldl {α β : Type} [DecidableEq α] (l : List (α × β)) (k : α)
    (acc : Option β) :
    l.foldl (fun a e => if e.1 = k then some e.2 else a) acc =
      match dictLookup l k with
      | some v => some v
      | none => acc := by
  induction l generalizing acc with
  | nil => simp [dictLookup]
  | cons a l ih =>
      simp only [dictLookup, List.foldl_cons] at *
      rw [ih (if a.1 = k then some a.2 else acc), ih (if a.1 = k then some a.2 else none)]
      cases h : l.foldl (fun a e => if e.1 = k then some e.2 else a) none with
      | some v => simp
      | none => by_cases hk : a.1 = k <;> simp [hk]

/-- Last-binding-wins reading of a cons. -/
theorem dictLookup_cons {α β : Type} [DecidableEq α] (a : α × β) (l : List (α × β))
    (k : α) :
    dictLookup (a :: l) k =
      match dictLookup l k with
      | some v => some v
      | none => if a.1 = k then some a.2 else none := by
  simp only [dictLookup, List.foldl_cons]
  exact dictLookup_foldl l k _

/-- A lookup fails exactly when no binding has the key. -/
theorem dictLookup_eq_none {α β : Type} [DecidableEq α] (l : List (α × β)) (k : α) :
    dictLookup l k = none ↔ ∀ e ∈ l, e.1 ≠ k := by
  induction l with
  | nil => simp [dictLookup]
  | cons a l ih =>
      rw [dictLookup_cons]
      cases h : dictLookup l k with
      | some v =>
          simp only []
          constructor
          · intro hc; exact Option.noConfusion hc
          · intro hall
            have hnone : dictLookup l k = none :=
              ih.mpr (fun e he => hall e (List.mem_cons_of_mem a he))
            rw [h] at hnone
            exact Option.noConfusion hnone
      | none =>
          simp only []
          constructor
          · intro hc
            intro e he
            rcases List.mem_cons.mp he with rfl | he2
            · intro hk; rw [if_pos hk] at hc; exact Option.noConfusion hc
            · exact (ih.mp h) e he2
          · intro hall
            rw [if_neg (hall a (List.mem_cons_self a l))]

/-- A successful lookup returns one of the bindings. -/
theorem dictLookup_mem {α β : Type} [DecidableEq α] {l : List (α × β)} {k : α} {v : β}
    (h : dictLookup l k = some v) : (k, v) ∈ l := by
  induction l with
  | nil => simp [dictLookup] at h
  | cons a l ih =>
      rw [dictLookup_cons] at h
      cases h2 : dictLookup l k with
      | some w =>
          rw [h2] at h
          simp only [Option.some.injEq] at h
          subst h
          exact List.mem_cons_of_mem a (ih h2)
      | none =>
          rw [h2] at h
          simp only [] at h
          by_cases hk : a.1 = k
          · rw [if_pos hk] at h
            simp only [Option.some.injEq] at h
            apply List.mem_cons.mpr
            left
            rw [← hk, ← h]
          · rw [if_neg hk] at h
            exact Option.noConfusion h

/-- When keys are unique, lookup returns the binding present in the
list. -/
theorem dictLookup_of_nodup_keys {α β : Type} [DecidableEq α] {l : List (α × β)}
    {k : α} {v : β} (hnd : (l.map Prod.fst).Nodup) (hm : (k, v) ∈ l) :
    dictLookup l k = some v := by
  induction l with
  | nil => simp at hm
  | cons a l ih =>
      simp only [List.map_cons, List.nodup_cons] at hnd
      rw [dictLookup_cons]
      rcases List.mem_cons.mp hm with rfl | hm2
      · have hnk : dictLookup l k = none := by
          rw [dictLookup_eq_none]
          intro e he hk
          have h1 : e.1 ∈ l.map Prod.fst := List.mem_map_of_mem Prod.fst he
          rw [hk] at h1
          exact hnd.1 h1
        rw [hnk]
        simp
      · rw [ih hnd.2 hm2]

/-! Lemmas about Python list indexing and grid well-formedness. -/

/-- pyIdx fails exactly outside the wrapped index range. -/
theorem pyIdx_eq_none {α : Type} (l : List α) (i : Int) :
    pyIdx l i = none ↔ i < -(l.length : Int) ∨ (l.length : Int) ≤ i := by
  unfold pyIdx
  by_cases h1 : 0 ≤ i ∧ i < (l.length : Int)
  · rw [if_pos h1]
    have hlt : i.toNat < l.length := by omega
    rw [List.get?_eq_get hlt]
    simp
    omega
  · rw [if_neg h1]
    by_cases h2 : -(l.length : Int) ≤ i ∧ i < 0
    · rw [if_pos h2]
      have hlt : l.length - (-i).toNat < l.length := by omega
      rw [List.get?_eq_get hlt]
      simp
      omega
    · rw [if_neg h2]
      simp
      omega

/-- In-range nonnegative indexing selects the i-th element (expressed
through getD with an arbitrary default). -/
theorem pyIdx_of_nonneg {α : Type} (l : List α) (i : Int) (d : α) (h0 : 0 ≤ i)
    (hl : i < (l.length : Int)) :
    pyIdx l i = some (l.getD i.toNat d) := by
  unfold pyIdx
  rw [if_pos ⟨h0, hl⟩]
  have hlt : i.toNat < l.length := by omega
  rw [List.get?_eq_get hlt]
  rw [List.getD_eq_getElem l d hlt]
  rfl

/-- A successful pyIdx returns a member of the list. -/
theorem pyIdx_mem {α : Type} {l : List α} {i : Int} {x : α} (h : pyIdx l i = some x) :
    x ∈ l := by
  unfold pyIdx at h
  by_cases h1 : 0 ≤ i ∧ i < (l.length : Int)
  · rw [if_pos h1] at h
    exact List.get?_mem h
  · rw [if_neg h1] at h
    by_cases h2 : -(l.length : Int) ≤ i ∧ i < 0
    · rw [if_pos h2] at h
      exact List.get?_mem h
    · rw [if_neg h2] at h
      exact Option.noConfusion h

/-- Under well-formedness every stored row has length n_cols. -/
theorem Grid.wf_row_len {g : Grid} (hwf : g.wf = true) {rw : List Cell}
    (hm : rw ∈ g.cells) : rw.length = g.n_cols := by
  unfold Grid.wf at hwf
  rw [Bool.and_eq_true] at hwf
  have h1 := List.all_eq_true.mp hwf.1 rw hm
  exact of_decide_eq_true h1

/-- Under well-formedness the cell stored at (r, c) carries coordinates
(r, c). -/
theorem Grid.wf_cellAt {g : Grid} (hwf : g.wf = true) {r c : Nat}
    (hr : r < g.n_rows) (hc : c < g.n_cols) :
    (g.cellAt r c).row = r ∧ (g.cellAt r c).col = c := by
  unfold Grid.wf at hwf
  rw [Bool.and_eq_true] at hwf
  have h1 := List.all_eq_true.mp hwf.2 r (List.mem_range.mpr hr)
  have h2 := List.all_eq_true.mp h1 c (List.mem_range.mpr hc)
  rw [Bool.and_eq_true] at h2
  exact ⟨of_decide_eq_true h2.1, of_decide_eq_true h2.2⟩

/-- Agreement of two solve outcomes in the sense of claim C1: equal
unique solutions, both the NoSolution condition, or both the
MultipleSolutions condition with the same multiset of discovered
solutions. -/
def resultsAgree : SolveResult → SolveResult → Prop
  | .ok s1, .ok s2 => s1 = s2
  | .error .noSolution, .error .noSolution => True
  | .error (.multipleSolutions l1), .error (.multipleSolutions l2) => List.Perm l1 l2
  | _, _ => False

instance resultsAgreeDec : (a b : SolveResult) → Decidable (resultsAgree a b)
  | .ok s1, .ok s2 => inferInstanceAs (Decidable (s1 = s2))
  | .ok _, .error _ => inferInstanceAs (Decidable False)
  | .error .noSolution, .ok _ => inferInstanceAs (Decidable False)
  | .error .noSolution, .error .noSolution => inferInstanceAs (Decidable True)
  | .error .noSolution, .error (.multipleSolutions _) => inferInstanceAs (Decidable False)
  | .error (.multipleSolutions _), .ok _ => inferInstanceAs (Decidable False)
  | .error (.multipleSolutions _), .error .noSolution => inferInstanceAs (Decidable False)
  | .error (.multipleSolutions l1), .error (.multipleSolutions l2) =>
      inferInstanceAs (Decidable (List.Perm l1 l2))

/-- C1 counterexample: on a 2 by 3 single-room grid with 2 people and no
clues, the brute-force solver (columns drawn from range(n) only) and the
backtracking solver (columns drawn from the whole grid) raise
MultipleSolutions with different solution multisets, so the two solvers
do not agree on every Puzzle. -/
theorem c1_counterexample :
    ¬ resultsAgree (bfSolve exPuzzle2x3) (btSolve exPuzzle2x3) := by decide

/-- C5 counterexample: with no clues on the 2 by 2 single-room grid with
2 people, the backtracking solver discovers 4 satisfying placements (2 row
orders times 2 column permutations), not the 2 the claim states. -/
theorem c5_counterexample : (btFound exPuzzle2x2).length ≠ 2 := by decide

/-- C5 (amended): with no clues on a 2 by 2 single-room grid with 2
people, the solver discovers exactly 4 satisfying placements (2 row
orders times 2 column permutations) and raises the MultipleSolutions
condition listing every one of them. -/
theorem c5_no_clue_2x2_four_solutions :
    (btFound exPuzzle2x2).length = 4 ∧
      btSolve exPuzzle2x2 =
        .error (.multipleSolutions ((btFound exPuzzle2x2).map Solution.payload)) := by
  constructor
  · decide
  · decide

/-- C7: for each invertible clue kind among on_object, next_to_object and
with_person, the clue built with invert=True evaluates, on every
placement, to the boolean negation of the clue built from the same
arguments with invert=False. -/
theorem c7_invert_negates (st : GameState) (p t : String) (obj : ObjectType) :
    Clue.eval st (.on_object p obj true) = !Clue.eval st (.on_object p obj false) ∧
      Clue.eval st (.next_to_object p obj true) =
        !Clue.eval st (.next_to_object p obj false) ∧
      Clue.eval st (.with_person p t true) = !Clue.eval st (.with_person p t false) :=
  ⟨rfl, rfl, rfl⟩

/-- C8 counterexample: get_cell does not fail for every negative row
index; on a 1 by 1 grid, get_cell(-1, 0) wraps around and returns the
cell. -/
theorem c8_counterexample :
    (-1 : Int) < 0 ∧ exGrid1x1.get_cell (-1) 0 ≠ none := by decide

/-- C8 (amended): get_cell fails exactly when an index falls outside
Python's wrapped ranges (r < -n_rows or r >= n_rows, likewise for
columns); for 0 <= r < n_rows and 0 <= c < n_cols it returns the unique
cell stored at (r, c), which carries those coordinates. -/
theorem c8_get_cell_contract (g : Grid) (hwf : g.wf = true) (r c : Int) :
    (g.get_cell r c = none ↔
      r < -(g.n_rows : Int) ∨ (g.n_rows : Int) ≤ r ∨
        c < -(g.n_cols : Int) ∨ (g.n_cols : Int) ≤ c) ∧
    (0 ≤ r → r < (g.n_rows : Int) → 0 ≤ c → c < (g.n_cols : Int) →
      g.get_cell r c = some (g.cellAt r.toNat c.toNat) ∧
        (g.cellAt r.toNat c.toNat).row = r.toNat ∧
        (g.cellAt r.toNat c.toNat).col = c.toNat) := by
  have hl : g.cells.length = g.n_rows := rfl
  constructor
  · unfold Grid.get_cell
    cases hrow : pyIdx g.cells r with
    | none =>
        have h1 := (pyIdx_eq_none g.cells r).mp hrow
        simp only [Option.none_bind]
        constructor
        · intro _
          omega
        · intro _
          trivial
    | some rw =>
        have hmem : rw ∈ g.cells := pyIdx_mem hrow
        have hlen : rw.length = g.n_cols := Grid.wf_row_len hwf hmem
        have hrOK : ¬(r < -(g.cells.length : Int) ∨ (g.cells.length : Int) ≤ r) := by
          intro hc
          rw [(pyIdx_eq_none g.cells r).mpr hc] at hrow
          exact Option.noConfusion hrow
        simp only [Option.some_bind]
        rw [pyIdx_eq_none rw c, hlen]
        constructor
        · intro h
          omega
        · intro h
          omega
  · intro hr0 hrn hc0 hcn
    have h1 : pyIdx g.cells r = some (g.cells.getD r.toNat []) :=
      pyIdx_of_nonneg g.cells r [] hr0 (by omega)
    have hrow_mem : g.cells.getD r.toNat [] ∈ g.cells := by
      have hlt : r.toNat < g.cells.length := by omega
      rw [List.getD_eq_getElem g.cells [] hlt]
      exact List.getElem_mem hlt
    have hlen : (g.cells.getD r.toNat []).length = g.n_cols :=
      Grid.wf_row_len hwf hrow_mem
    have h2 : pyIdx (g.cells.getD r.toNat []) c =
        some ((g.cells.getD r.toNat []).getD c.toNat (Cell.mk 0 0 "" [])) :=
      pyIdx_of_nonneg _ c (Cell.mk 0 0 "" []) hc0 (by omega)
    have hcoord := Grid.wf_cellAt hwf (r := r.toNat) (c := c.toNat) (by omega) (by omega)
    refine ⟨?_, hcoord.1, hcoord.2⟩
    unfold Grid.get_cell
    rw [h1, Option.some_bind, h2]
    rfl

/-- C8 witness: the contract instantiated on the concrete 2 by 2 grid at
index (1, 1). -/
theorem c8_witness :
    exGrid2x2.wf = true ∧
    ((exGrid2x2.get_cell 1 1 = none ↔
      (1 : Int) < -(exGrid2x2.n_rows : Int) ∨ (exGrid2x2.n_rows : Int) ≤ 1 ∨
        (1 : Int) < -(exGrid2x2.n_cols : Int) ∨ (exGrid2x2.n_cols : Int) ≤ 1) ∧
    (0 ≤ (1 : Int) → (1 : Int) < (exGrid2x2.n_rows : Int) → 0 ≤ (1 : Int) →
      (1 : Int) < (exGrid2x2.n_cols : Int) →
      exGrid2x2.get_cell 1 1 = some (exGrid2x2.cellAt (1 : Int).toNat (1 : Int).toNat) ∧
        (exGrid2x2.cellAt (1 : Int).toNat (1 : Int).toNat).row = (1 : Int).toNat ∧
        (exGrid2x2.cellAt (1 : Int).toNat (1 : Int).toNat).col = (1 : Int).toNat)) :=
  ⟨by decide, c8_get_cell_contract exGrid2x2 (by decide) 1 1⟩

/-! Characterisation of the domain-reduction preprocessor. -/

/-- The cell predicate one clue contributes to person q's candidate
filter in the source: the guarded filter of _apply_domain_filter, with
objects going through the lossy name lookup.  Clue kinds outside the ten
parseable patterns contribute the constant true. -/
def srcFilterPred (g : Grid) (people : List String) (q : String) : Clue → Cell → Bool
  | .at_column p col, cell =>
      if q = p ∧ p ∈ people then cell.col = col else true
  | .in_room p room false, cell =>
      if q = p ∧ p ∈ people then cell.room_id = room else true
  | .on_object p obj false, cell =>
      if q = p ∧ p ∈ people then cell.has_object_opt (objFilterLookup obj) else true
  | .on_object p obj true, cell =>
      if q = p ∧ p ∈ people then !cell.has_object_opt (objFilterLookup obj) else true
  | .only_on_object p obj, cell =>
      if q = p ∧ p ∈ people then cell.has_object_opt (objFilterLookup obj) else true
  | .next_to_object p obj false, cell =>
      if q = p ∧ p ∈ people then hasNeighborWithObject g cell (objFilterLookup obj)
      else true
  | .next_to_object p obj true, cell =>
      if q = p ∧ p ∈ people then !hasNeighborWithObject g cell (objFilterLookup obj)
      else true
  | .in_corner p, cell => if q = p ∧ p ∈ people then isCorner g cell else true
  | .not_next_to_wall p, cell => if q = p ∧ p ∈ people then isInterior g cell else true
  | .alone_in_room p room, cell =>
      if q = p ∧ p ∈ people then cell.room_id = room else true
  | _, _ => true

/-- The structural satisfaction predicate of the specification, for the
same ten patterns: identical to the source filter except that the
object argument is used directly (carrying the object for on_object,
having an object-bearing same-room orthogonal neighbor for
next_to_object, and so on). -/
def specStructPred (g : Grid) (people : List String) (q : String) : Clue → Cell → Bool
  | .at_column p col, cell =>
      if q = p ∧ p ∈ people then cell.col = col else true
  | .in_room p room false, cell =>
      if q = p ∧ p ∈ people then cell.room_id = room else true
  | .on_object p obj false, cell =>
      if q = p ∧ p ∈ people then cell.has_object obj else true
  | .on_object p obj true, cell =>
      if q = p ∧ p ∈ people then !cell.has_object obj else true
  | .only_on_object p obj, cell =>
      if q = p ∧ p ∈ people then cell.has_object obj else true
  | .next_to_object p obj false, cell =>
      if q = p ∧ p ∈ people then hasNeighborWithObject g cell (some obj) else true
  | .next_to_object p obj true, cell =>
      if q = p ∧ p ∈ people then !hasNeighborWithObject g cell (some obj) else true
  | .in_corner p, cell => if q = p ∧ p ∈ people then isCorner g cell else true
  | .not_next_to_wall p, cell => if q = p ∧ p ∈ people then isInterior g cell else true
  | .alone_in_room p room, cell =>
      if q = p ∧ p ∈ people then cell.room_id = room else true
  | _, _ => true

/-- True when the clue's object argument, if the domain filter parses
one, is not the synthetic VOID tag. -/
def clueObjOK : Clue → Bool
  | .on_object _ obj _ => obj ≠ ObjectType.void
  | .only_on_object _ obj => obj ≠ ObjectType.void
  | .next_to_object _ obj _ => obj ≠ ObjectType.void
  | _ => true

/-- For clues whose object argument survives the name round trip, the
source filter and the specification's structural predicate coincide. -/
theorem srcFilterPred_eq_spec (g : Grid) (people : List String) (q : String)
    (c : Clue) (hok : clueObjOK c = true) :
    srcFilterPred g people q c = specStructPred g people q c := by
  cases c with
  | on_object p obj invert =>
      have hobj : obj ≠ ObjectType.void := by
        intro hv; rw [hv] at hok; exact Bool.noConfusion hok
      cases invert <;> funext cell <;>
        simp only [srcFilterPred, specStructPred, objFilterLookup_eq obj hobj,
          Cell.has_object_opt]
  | only_on_object p obj =>
      have hobj : obj ≠ ObjectType.void := by
        intro hv; rw [hv] at hok; exact Bool.noConfusion hok
      funext cell
      simp only [srcFilterPred, specStructPred, objFilterLookup_eq obj hobj,
        Cell.has_object_opt]
  | next_to_object p obj invert =>
      have hobj : obj ≠ ObjectType.void := by
        intro hv; rw [hv] at hok; exact Bool.noConfusion hok
      cases invert <;> funext cell <;>
        simp only [srcFilterPred, specStructPred, objFilterLookup_eq obj hobj]
  | in_room p room invert => cases invert <;> rfl
  | _ => rfl

/-- A guarded filter equals a filter by the guarded predicate. -/
theorem filter_guard {α : Type} (l : List α) (cond : Prop) [Decidable cond]
    (p : α → Bool) :
    (if cond then l.filter p else l) = l.filter (fun a => if cond then p a else true) := by
  by_cases h : cond <;> simp [h]

/-- One domain-filter application is a filter by the clue's source
predicate. -/
theorem domainFilterStep_eq (g : Grid) (people : List String)
    (cand : String → List Cell) (c : Clue) (q : String) :
    domainFilterStep g people cand c q = (cand q).filter (srcFilterPred g people q c) := by
  cases c with
  | in_room p room invert =>
      cases invert with
      | false => exact filter_guard (cand q) _ _
      | true => exact (List.filter_true (cand q)).symm
  | on_object p obj invert =>
      cases invert <;> exact filter_guard (cand q) _ _
  | next_to_object p obj invert =>
      cases invert <;> exact filter_guard (cand q) _ _
  | only_on_object p obj => exact filter_guard (cand q) _ _
  | at_column p col => exact filter_guard (cand q) _ _
  | in_corner p => exact filter_guard (cand q) _ _
  | not_next_to_wall p => exact filter_guard (cand q) _ _
  | alone_in_room p room => exact filter_guard (cand q) _ _
  | _ => exact (List.filter_true (cand q)).symm

/-- Running any clue list through the domain filter is a single filter by
the conjunction of the clues' source predicates. -/
theorem foldl_domainFilter (g : Grid) (people : List String) (clues : List Clue)
    (cand : String → List Cell) (q : String) :
    (clues.foldl (fun cd c => domainFilterStep g people cd c) cand) q =
      (cand q).filter (fun cell => clues.all (fun c => srcFilterPred g people q c cell)) := by
  induction clues generalizing cand with
  | nil => simp
  | cons c rest ih =>
      simp only [List.foldl_cons, List.all_cons]
      rw [ih, domainFilterStep_eq, List.filter_filter]
      congr 1
      funext cell
      rw [Bool.and_comm]

/-- The candidate cells of any person are exactly the valid cells passing
every clue's source filter. -/
theorem buildCandidates_eq (pz : Puzzle) (q : String) :
    buildCandidates pz q =
      pz.grid.valid_cells.filter
        (fun cell => pz.clues.all (fun c => srcFilterPred pz.grid pz.people q c cell)) :=
  foldl_domainFilter pz.grid pz.people pz.clues (fun _ => pz.grid.valid_cells) q

/-- C4 counterexample: the domain filter recovers the clue's object from
its name with _OBJ_MAP.get(name.lower()), which loses VOID; so for the
clue next_to_object(p, VOID) the non-blocked cell (0,0), which
structurally satisfies the clue (its same-room neighbor (0,1) carries
VOID), is excluded from the reduced candidate set. -/
theorem c4_counterexample :
    Clue.next_to_object "p" ObjectType.void false ∈ exPuzzleVoid.clues ∧
      (Cell.mk 0 0 "a" []) ∈ exPuzzleVoid.grid.valid_cells ∧
      hasNeighborWithObject exPuzzleVoid.grid (Cell.mk 0 0 "a" [])
        (some ObjectType.void) = true ∧
      (Cell.mk 0 0 "a" []) ∉ buildCandidates exPuzzleVoid "p" := by decide

/-- C4 (amended): provided no clue's parsed object argument is the
synthetic VOID tag, domain reduction is sound and exact: every person's
reduced candidate set is contained in the unreduced set (the non-blocked
cells), and it retains precisely the non-blocked cells that structurally
satisfy every applicable single-person clue, so no cell satisfying the
clues structurally is ever excluded. -/
theorem c4_domain_reduction_sound (pz : Puzzle) (q : String)
    (hok : ∀ c ∈ pz.clues, clueObjOK c = true) :
    (∀ cell ∈ buildCandidates pz q, cell ∈ pz.grid.valid_cells) ∧
      buildCandidates pz q =
        pz.grid.valid_cells.filter
          (fun cell => pz.clues.all (fun c => specStructPred pz.grid pz.people q c cell)) := by
  have heq : buildCandidates pz q =
      pz.grid.valid_cells.filter
        (fun cell => pz.clues.all (fun c => specStructPred pz.grid pz.people q c cell)) := by
    rw [buildCandidates_eq]
    congr 1
    funext cell
    apply Bool.eq_iff_iff.mpr
    simp only [List.all_eq_true]
    constructor
    · intro h c hc
      rw [← srcFilterPred_eq_spec pz.grid pz.people q c (hok c hc)]
      exact h c hc
    · intro h c hc
      rw [srcFilterPred_eq_spec pz.grid pz.people q c (hok c hc)]
      exact h c hc
  refine ⟨?_, heq⟩
  intro cell hm
  rw [heq] at hm
  exact (List.mem_filter.mp hm).1

/-- C4 witness: the soundness statement instantiated on a concrete
puzzle whose clue list passes the VOID check. -/
theorem c4_witness :
    (∀ c ∈ exPuzzle2x2.clues, clueObjOK c = true) ∧
      ((∀ cell ∈ buildCandidates exPuzzle2x2 "Alice",
          cell ∈ exPuzzle2x2.grid.valid_cells) ∧
        buildCandidates exPuzzle2x2 "Alice" =
          exPuzzle2x2.grid.valid_cells.filter
            (fun cell => exPuzzle2x2.clues.all
              (fun c => specStructPred exPuzzle2x2.grid exPuzzle2x2.people "Alice" c cell))) :=
  ⟨by decide, c4_domain_reduction_sound exPuzzle2x2 "Alice" (by decide)⟩

/-! Corner detection in a single-room grid (claim C6). -/

/-- In a grid all of whose cells carry room R, is_wall relative to R is
exactly the out-of-bounds test. -/
theorem is_wall_single_room (g : Grid) (R : String)
    (hroom : ∀ r < g.n_rows, ∀ c < g.n_cols, (g.cellAt r c).room_id = R)
    (r c : Int) :
    is_wall r c g R =
      decide (r < 0 ∨ (g.n_rows : Int) ≤ r ∨ c < 0 ∨ (g.n_cols : Int) ≤ c) := by
  unfold is_wall
  by_cases h : r < 0 ∨ r ≥ (g.n_rows : Int) ∨ c < 0 ∨ c ≥ (g.n_cols : Int)
  · rw [if_pos h]
    exact (decide_eq_true h).symm
  · rw [if_neg h]
    push_neg at h
    have hr : r.toNat < g.n_rows := by omega
    have hc : c.toNat < g.n_cols := by omega
    rw [hroom r.toNat hr c.toNat hc]
    have h2 : ¬(r < 0 ∨ (g.n_rows : Int) ≤ r ∨ c < 0 ∨ (g.n_cols : Int) ≤ c) := by omega
    simp [h2]

/-- C6: in a single-room grid, the in_corner clue holds for a person at
in-bounds position (r, c) exactly when (r, c) is one of the four
geometric corners; at every other position it evaluates to false,
because only the four 90-degree-adjacent direction pairs are tested. -/
theorem c6_in_corner_iff (g : Grid) (R : String) (st : GameState) (p : String)
    (hg : st.grid = g)
    (hroom : ∀ r < g.n_rows, ∀ c < g.n_cols, (g.cellAt r c).room_id = R)
    (r c : Nat) (hpos : st.position p = (r, c))
    (hr : r < g.n_rows) (hc : c < g.n_cols) :
    Clue.eval st (.in_corner p) = true ↔
      (r = 0 ∧ c = 0) ∨ (r = 0 ∧ c = g.n_cols - 1) ∨
        (r = g.n_rows - 1 ∧ c = 0) ∨ (r = g.n_rows - 1 ∧ c = g.n_cols - 1) := by
  have hroomOf : st.room_of p = R := by
    unfold GameState.room_of GameState.cell_of
    rw [hpos, hg]
    exact hroom r hr c hc
  simp only [Clue.eval]
  rw [hpos, hroomOf, hg]
  simp only [seqDirPairs, List.any_cons, List.any_nil, Bool.or_eq_true,
    Bool.and_eq_true, Bool.or_false,
    is_wall_single_room g R hroom, decide_eq_true_eq]
  omega

/-- The state used by the C6 witness: one person placed at (0, 2) on the
3 by 3 single-room grid. -/
def exState3x3 : GameState := ⟨["A"], [2], exGrid3x3⟩

/-- C6 witness: on the 3 by 3 single-room grid, position (0, 2) is the
top-right geometric corner and in_corner holds there. -/
theorem c6_witness :
    (∀ r < exGrid3x3.n_rows, ∀ c < exGrid3x3.n_cols,
      (exGrid3x3.cellAt r c).room_id = "R") ∧
    exState3x3.position "A" = (0, 2) ∧
    (Clue.eval exState3x3 (.in_corner "A") = true ↔
      (0 = 0 ∧ 2 = 0) ∨ (0 = 0 ∧ 2 = exGrid3x3.n_cols - 1) ∨
        (0 = exGrid3x3.n_rows - 1 ∧ 2 = 0) ∨
        (0 = exGrid3x3.n_rows - 1 ∧ 2 = exGrid3x3.n_cols - 1)) :=
  ⟨by decide, by decide,
    c6_in_corner_iff exGrid3x3 "R" exState3x3 "A" rfl (by decide) 0 2 (by decide)
      (by decide) (by decide)⟩

/-- C2: the finaliser of the backtracking solver classifies the list of
discovered solutions exactly by count: zero raises NoSolution, exactly
one is returned as the answer, and two or more raise MultipleSolutions
whose payload lists every discovered solution, each as its murderer with
the full person-to-position map. -/
theorem c2_finalize_classifies (pz : Puzzle) :
    (btFound pz = [] → btSolve pz = .error .noSolution) ∧
      (∀ s, btFound pz = [s] → btSolve pz = .ok s) ∧
      (2 ≤ (btFound pz).length →
        btSolve pz = .error (.multipleSolutions ((btFound pz).map Solution.payload))) := by
  refine ⟨?_, ?_, ?_⟩
  · intro h
    unfold btSolve finalize
    rw [h]
  · intro s h
    unfold btSolve finalize
    rw [h]
  · intro h2
    unfold btSolve finalize
    cases hf : btFound pz with
    | nil => rw [hf] at h2; simp at h2
    | cons a t =>
        cases t with
        | nil => rw [hf] at h2; simp at h2
        | cons b t2 => rfl

/-- C2 witness: the classifier instantiated on the clue-free 2 by 2
puzzle, which discovers 4 solutions. -/
theorem c2_witness :
    2 ≤ (btFound exPuzzle2x2).length ∧
      btSolve exPuzzle2x2 =
        .error (.multipleSolutions ((btFound exPuzzle2x2).map Solution.payload)) :=
  ⟨by decide, (c2_finalize_classifies exPuzzle2x2).2.2 (by decide)⟩

/-- C3: for a complete placement on which every clue passes, a Solution
is recorded if and only if the victim's room holds exactly 2 occupants
(so 1 occupant or 3 or more are excluded regardless of clue
satisfaction), and the recorded murderer is the unique occupant of the
victim's room other than the victim. -/
theorem c3_murder_rule (pz : Puzzle) (ro : List String) (cp : List Nat)
    (hnd : ro.Nodup) (hv : pz.victim ∈ ro)
    (hall : pz.clues.all (fun c => c.eval (GameState.mk ro cp pz.grid)) = true) :
    ((extractSolution pz ro cp).isSome = true ↔
      ((GameState.mk ro cp pz.grid).people_in_room
        ((GameState.mk ro cp pz.grid).room_of pz.victim)).length = 2) ∧
    (∀ s, extractSolution pz ro cp = some s →
      s.murderer ∈ (GameState.mk ro cp pz.grid).people_in_room
          ((GameState.mk ro cp pz.grid).room_of pz.victim) ∧
        s.murderer ≠ pz.victim ∧
        ∀ q ∈ (GameState.mk ro cp pz.grid).people_in_room
            ((GameState.mk ro cp pz.grid).room_of pz.victim),
          q ≠ pz.victim → q = s.murderer) := by
  have hvm : pz.victim ∈ (GameState.mk ro cp pz.grid).people_in_room
      ((GameState.mk ro cp pz.grid).room_of pz.victim) := by
    unfold GameState.people_in_room
    apply List.mem_filter.mpr
    exact ⟨hv, by simp⟩
  have hmnd : ((GameState.mk ro cp pz.grid).people_in_room
      ((GameState.mk ro cp pz.grid).room_of pz.victim)).Nodup := hnd.filter _
  have hex : extractSolution pz ro cp =
      (if ((GameState.mk ro cp pz.grid).people_in_room
            ((GameState.mk ro cp pz.grid).room_of pz.victim)).length ≠ 2 then none
       else some ⟨pz.people.map (fun p => (p, (GameState.mk ro cp pz.grid).position p)),
         (((GameState.mk ro cp pz.grid).people_in_room
             ((GameState.mk ro cp pz.grid).room_of pz.victim)).find?
           (fun p => p ≠ pz.victim)).getD ""⟩) := by
    simp only [extractSolution, hall, Bool.not_true, Bool.false_eq_true, if_false]
  constructor
  · rw [hex]
    by_cases h2 : ((GameState.mk ro cp pz.grid).people_in_room
        ((GameState.mk ro cp pz.grid).room_of pz.victim)).length = 2 <;> simp [h2]
  · intro s hs
    rw [hex] at hs
    by_cases h2 : ((GameState.mk ro cp pz.grid).people_in_room
        ((GameState.mk ro cp pz.grid).room_of pz.victim)).length = 2
    swap
    · rw [if_pos h2] at hs
      exact Option.noConfusion hs
    rw [if_neg (by omega)] at hs
    obtain ⟨a, b, hab⟩ := List.length_eq_two.mp h2
    have hms : s.murderer =
        (((GameState.mk ro cp pz.grid).people_in_room
            ((GameState.mk ro cp pz.grid).room_of pz.victim)).find?
          (fun p => p ≠ pz.victim)).getD "" := by
      have := congrArg Solution.murderer (Option.some.inj hs)
      exact this.symm
    have hne : a ≠ b := by
      rw [hab] at hmnd
      exact (List.nodup_cons.mp hmnd).1 ∘ (fun h => h ▸ List.mem_cons_self b [])
    rw [hab] at hvm
    rw [hab] at hms ⊢
    rcases List.mem_cons.mp hvm with hva | hvb
    · have hpa : (decide (a ≠ pz.victim)) = false := by simp [hva]
      have hpb : (decide (b ≠ pz.victim)) = true := by
        simp only [decide_eq_true_eq]
        intro hb
        exact hne (by rw [← hva, ← hb])
      have hfind : ([a, b].find? (fun p => p ≠ pz.victim)) = some b := by
        simp [List.find?, hpa, hpb]
      rw [hfind] at hms
      simp only [Option.getD_some] at hms
      refine ⟨?_, ?_, ?_⟩
      · rw [hms]; exact List.mem_cons_of_mem a (List.mem_cons_self b [])
      · rw [hms]; intro hb; exact hne (hva.symm.trans hb.symm)
      · intro q hq hqv
        rcases List.mem_cons.mp hq with rfl | hq2
        · exact absurd hva.symm hqv
        · rcases List.mem_cons.mp hq2 with rfl | hq3
          · exact hms.symm
          · exact absurd hq3 (List.not_mem_nil q)
    · rcases List.mem_cons.mp hvb with hvb2 | hnil
      swap
      · exact absurd hnil (List.not_mem_nil pz.victim)
      have hpa : (decide (a ≠ pz.victim)) = true := by
        simp only [decide_eq_true_eq]
        intro ha
        exact hne (ha.trans hvb2)
      have hfind : ([a, b].find? (fun p => p ≠ pz.victim)) = some a := by
        simp [List.find?, hpa]
      rw [hfind] at hms
      simp only [Option.getD_some] at hms
      refine ⟨?_, ?_, ?_⟩
      · rw [hms]; exact List.mem_cons_self a [b]
      · rw [hms]; intro ha; exact hne (ha.trans hvb2)
      · intro q hq hqv
        rcases List.mem_cons.mp hq with rfl | hq2
        · exact hms.symm
        · rcases List.mem_cons.mp hq2 with rfl | hq3
          · exact absurd hvb2.symm hqv
          · exact absurd hq3 (List.not_mem_nil q)

/-- C3 witness: the murder rule instantiated on the clue-free 2 by 2
puzzle at the placement Alice at (0,0), Bob at (1,1). -/
theorem c3_witness :
    (["Alice", "Bob"] : List String).Nodup ∧
    exPuzzle2x2.victim ∈ ["Alice", "Bob"] ∧
    ((extractSolution exPuzzle2x2 ["Alice", "Bob"] [0, 1]).isSome = true ↔
      ((GameState.mk ["Alice", "Bob"] [0, 1] exPuzzle2x2.grid).people_in_room
        ((GameState.mk ["Alice", "Bob"] [0, 1] exPuzzle2x2.grid).room_of
          exPuzzle2x2.victim)).length = 2) :=
  ⟨by decide, by decide,
    (c3_murder_rule exPuzzle2x2 ["Alice", "Bob"] [0, 1] (by decide) (by decide)
      (by decide)).1⟩

/-! Characterisation of the column backtracking search tree. -/

/-- The pure search tree of the backtrack recursion: the column
extensions reachable below row i with the given used set (btGo with the
accumulated prefix factored out). -/
def btExts (cand : String → Nat → List Nat) (ro : List String) :
    Nat → Nat → List Nat → List (List Nat)
  | 0, _, _ => [[]]
  | fuel + 1, i, used =>
      ((cand (ro.getD i "") i).filter (fun col => !used.contains col)).flatMap
        (fun col =>
          (btExts cand ro fuel (i + 1) (col :: used)).map (fun ext => col :: ext))

/-- btGo appends its prefix in front of every extension of the search
tree. -/
theorem btGo_eq_map (cand : String → Nat → List Nat) (ro : List String)
    (fuel : Nat) : ∀ (i : Nat) (used pre : List Nat),
    btGo cand ro fuel i used pre =
      (btExts cand ro fuel i used).map (fun ext => pre ++ ext) := by
  induction fuel with
  | zero => intro i used pre; simp [btGo, btExts]
  | succ f ih =>
      intro i used pre
      simp only [btGo, btExts, List.map_flatMap]
      congr 1
      funext col
      rw [ih, List.map_map]
      congr 1
      funext ext
      simp

/-- Validity of a column extension below row i: each chosen column is
drawn from the person's candidate columns for its row and avoids the
columns already used on the branch. -/
def ValidExt (cand : String → Nat → List Nat) (ro : List String) :
    Nat → List Nat → List Nat → Prop
  | _, _, [] => True
  | i, used, col :: ext =>
      col ∈ cand (ro.getD i "") i ∧ col ∉ used ∧
        ValidExt cand ro (i + 1) (col :: used) ext

theorem validExt_nil (cand : String → Nat → List Nat) (ro : List String)
    (i : Nat) (used : List Nat) : ValidExt cand ro i used [] ↔ True := Iff.rfl

theorem validExt_cons (cand : String → Nat → List Nat) (ro : List String)
    (i : Nat) (used : List Nat) (col : Nat) (ext : List Nat) :
    ValidExt cand ro i used (col :: ext) ↔
      col ∈ cand (ro.getD i "") i ∧ col ∉ used ∧
        ValidExt cand ro (i + 1) (col :: used) ext := Iff.rfl

/-- Membership in the search tree is exactly validity at full depth. -/
theorem mem_btExts (cand : String → Nat → List Nat) (ro : List String)
    (fuel : Nat) : ∀ (i : Nat) (used ext : List Nat),
    ext ∈ btExts cand ro fuel i used ↔
      ext.length = fuel ∧ ValidExt cand ro i used ext := by
  induction fuel with
  | zero =>
      intro i used ext
      simp only [btExts, List.mem_singleton]
      constructor
      · rintro rfl
        exact ⟨rfl, trivial⟩
      · rintro ⟨hlen, _⟩
        exact List.eq_nil_of_length_eq_zero hlen
  | succ f ih =>
      intro i used ext
      simp only [btExts, List.mem_flatMap, List.mem_map, List.mem_filter]
      constructor
      · rintro ⟨col, ⟨hc1, hc2⟩, ext2, hext2, rfl⟩
        obtain ⟨hlen2, hv2⟩ := (ih (i + 1) (col :: used) ext2).mp hext2
        refine ⟨by simp [hlen2], ?_⟩
        rw [validExt_cons]
        exact ⟨hc1, by simpa using hc2, hv2⟩
      · rintro ⟨hlen, hvalid⟩
        cases ext with
        | nil => simp at hlen
        | cons col ext2 =>
            rw [validExt_cons] at hvalid
            obtain ⟨h1, h2, h3⟩ := hvalid
            refine ⟨col, ⟨h1, by simpa using h2⟩, ext2, ?_, rfl⟩
            exact (ih (i + 1) (col :: used) ext2).mpr ⟨by simpa using hlen, h3⟩

/-- The complete column assignments the top-level backtracking reaches. -/
theorem mem_btGo_top (cand : String → Nat → List Nat) (ro : List String)
    (n : Nat) (cp : List Nat) :
    cp ∈ btGo cand ro n 0 [] [] ↔ cp.length = n ∧ ValidExt cand ro 0 [] cp := by
  rw [btGo_eq_map, ← mem_btExts]
  simp

/-- Positional reading of extension validity: the column chosen for the
j-th remaining row lies in the candidate columns of the person at row
i+j, avoids the incoming used set, and differs from every earlier chosen
column. -/
theorem validExt_iff (cand : String → Nat → List Nat) (ro : List String) :
    ∀ (ext : List Nat) (i : Nat) (used : List Nat),
    ValidExt cand ro i used ext ↔
      ∀ j, j < ext.length →
        ext.getD j 0 ∈ cand (ro.getD (i + j) "") (i + j) ∧
          ext.getD j 0 ∉ used ∧
          ∀ j2, j2 < j → ext.getD j2 0 ≠ ext.getD j 0 := by
  intro ext
  induction ext with
  | nil =>
      intro i used
      simp [validExt_nil]
  | cons col ext ih =>
      intro i used
      rw [validExt_cons]
      constructor
      · rintro ⟨h1, h2, h3⟩ j hj
        cases j with
        | zero =>
            refine ⟨by simpa using h1, by simpa using h2, ?_⟩
            intro j2 hj2
            omega
        | succ j2 =>
            have hj2 : j2 < ext.length := by simpa using hj
            have hrec := (ih (i + 1) (col :: used)).mp h3 j2 hj2
            have harith : i + 1 + j2 = i + (j2 + 1) := by omega
            refine ⟨?_, ?_, ?_⟩
            · rw [← harith]
              simpa using hrec.1
            · have hnotin : ext.getD j2 0 ∉ col :: used := hrec.2.1
              simp only [List.getD_cons_succ]
              intro hc
              exact hnotin (List.mem_cons_of_mem col hc)
            · intro j3 hj3
              cases j3 with
              | zero =>
                  have hnotin : ext.getD j2 0 ∉ col :: used := hrec.2.1
                  simp only [List.getD_cons_zero, List.getD_cons_succ]
                  intro hc
                  exact hnotin (hc ▸ List.mem_cons_self col used)
              | succ j4 =>
                  have := hrec.2.2 j4 (by omega)
                  simpa using this
      · intro hall
        have h0 := hall 0 (by simp)
        refine ⟨by simpa using h0.1, by simpa using h0.2.1, ?_⟩
        apply (ih (i + 1) (col :: used)).mpr
        intro j hj
        have hs := hall (j + 1) (by simpa using hj)
        have harith : i + (j + 1) = i + 1 + j := by omega
        refine ⟨?_, ?_, ?_⟩
        · have := hs.1
          rw [harith] at this
          simpa using this
        · have hne0 := hs.2.2 0 (by omega)
          simp only [List.getD_cons_zero, List.getD_cons_succ] at hne0
          have hnu : ext.getD j 0 ∉ used := by simpa using hs.2.1
          intro hc
          rcases List.mem_cons.mp hc with hcc | hcu
          · exact hne0 hcc.symm
          · exact hnu hcu
        · intro j2 hj2
          have := hs.2.2 (j2 + 1) (by omega)
          simpa using this

/-- The search tree has no duplicate leaves (for deduplicated candidate
columns, as _build_candidate_cols produces). -/
theorem nodup_btExts (cand : String → Nat → List Nat) (ro : List String)
    (hcand : ∀ p i, (cand p i).Nodup) (fuel : Nat) :
    ∀ (i : Nat) (used : List Nat), (btExts cand ro fuel i used).Nodup := by
  induction fuel with
  | zero => intro i used; simp [btExts]
  | succ f ih =>
      intro i used
      simp only [btExts]
      rw [List.nodup_flatMap]
      constructor
      · intro col _
        exact (ih (i + 1) (col :: used)).map (fun a b h => by
          injection h with h1 h2)
      · apply List.Pairwise.filter
        apply List.Pairwise.imp ?_ (hcand (ro.getD i "") i)
        intro a b hab
        intro x hxa hxb
        simp only [List.mem_map] at hxa hxb
        obtain ⟨e1, _, he1⟩ := hxa
        obtain ⟨e2, _, he2⟩ := hxb
        rw [← he1] at he2
        injection he2 with h1 h2
        exact hab h1.symm

/-- A valid extension never repeats a column. -/
theorem validExt_nodup (cand : String → Nat → List Nat) (ro : List String)
    {ext : List Nat} {i : Nat} {used : List Nat}
    (h : ValidExt cand ro i used ext) : ext.Nodup := by
  rw [List.nodup_iff_getElem?_ne_getElem?]
  intro j1 j2 hlt hj2
  have hv := (validExt_iff cand ro ext i used).mp h j2 hj2
  have hne := hv.2.2 j1 hlt
  rw [List.getElem?_eq_getElem (by omega), List.getElem?_eq_getElem hj2]
  intro hc
  apply hne
  have e1 : ext.getD j1 0 = ext[j1] := List.getD_eq_getElem ext 0 (by omega)
  have e2 : ext.getD j2 0 = ext[j2] := List.getD_eq_getElem ext 0 hj2
  rw [e1, e2]
  exact Option.some.inj hc

/-- Membership in the per-row candidate columns. -/
theorem mem_candidateCols (cand : String → List Cell) (p : String) (r col : Nat) :
    col ∈ candidateCols cand p r ↔
      ∃ cell ∈ cand p, cell.row = r ∧ cell.col = col := by
  unfold candidateCols
  rw [List.mem_dedup]
  simp only [List.mem_map, List.mem_filter, decide_eq_true_eq]
  constructor
  · rintro ⟨cell, ⟨hm, hr⟩, rfl⟩
    exact ⟨cell, hm, hr, rfl⟩
  · rintro ⟨cell, hm, hr, rfl⟩
    exact ⟨cell, ⟨hm, hr⟩, rfl⟩

/-- Every member of all_cells of a well-formed grid is the stored cell at
its own coordinates, which are in bounds. -/
theorem all_cells_eq_cellAt {g : Grid} (hwf : g.wf = true) {cell : Cell}
    (hm : cell ∈ g.all_cells) :
    cell.row < g.n_rows ∧ cell.col < g.n_cols ∧ g.cellAt cell.row cell.col = cell := by
  unfold Grid.all_cells at hm
  simp only [List.mem_flatMap, List.mem_map, List.mem_range] at hm
  obtain ⟨r, hr, c, hc, rfl⟩ := hm
  have hco := Grid.wf_cellAt hwf hr hc
  rw [hco.1, hco.2]
  exact ⟨hr, hc, rfl⟩

/-- The converse: an in-bounds stored cell is a member of all_cells. -/
theorem cellAt_mem_all_cells (g : Grid) {r c : Nat} (hr : r < g.n_rows)
    (hc : c < g.n_cols) : g.cellAt r c ∈ g.all_cells := by
  unfold Grid.all_cells
  simp only [List.mem_flatMap, List.mem_map, List.mem_range]
  exact ⟨r, hr, c, hc, rfl⟩

/-- Membership in valid_cells unpacked. -/
theorem mem_valid_cells (g : Grid) (cell : Cell) :
    cell ∈ g.valid_cells ↔ cell ∈ g.all_cells ∧ cell.is_blocked = false := by
  unfold Grid.valid_cells
  rw [List.mem_filter]
  simp

/-- C10: the GameState constructor stores any row order and any column
list verbatim, with no structural validation; yet every complete column
assignment the backtracking search reaches has pairwise-distinct columns,
and places the person of each row on a non-blocked cell drawn from that
person's clue-filtered candidate set. -/
theorem c10_gamestate_invariant :
    (∀ (ro : List String) (cp : List Nat) (g : Grid),
      (GameState.mk ro cp g).row_order = ro ∧ (GameState.mk ro cp g).col_perm = cp) ∧
    (∀ (pz : Puzzle) (ro : List String) (cp : List Nat), pz.grid.wf = true →
      cp ∈ btGo (puzzleCandCols pz) ro pz.people.length 0 [] [] →
      cp.Nodup ∧ cp.length = pz.people.length ∧
        ∀ i, i < pz.people.length →
          ∃ cell, cell ∈ buildCandidates pz (ro.getD i "") ∧
            cell.is_blocked = false ∧ pz.grid.cellAt i (cp.getD i 0) = cell) := by
  refine ⟨fun ro cp g => ⟨rfl, rfl⟩, ?_⟩
  intro pz ro cp hwf hmem
  obtain ⟨hlen, hvalid⟩ := (mem_btGo_top _ ro pz.people.length cp).mp hmem
  refine ⟨validExt_nodup _ ro hvalid, hlen, ?_⟩
  intro i hi
  have hv := (validExt_iff _ ro cp 0 []).mp hvalid i (by omega)
  have hcc : cp.getD i 0 ∈ puzzleCandCols pz (ro.getD (0 + i) "") (0 + i) := hv.1
  rw [Nat.zero_add] at hcc
  unfold puzzleCandCols at hcc
  obtain ⟨cell, hcand, hrow, hcol⟩ := (mem_candidateCols _ _ i (cp.getD i 0)).mp hcc
  have hvalid2 : cell ∈ pz.grid.valid_cells := by
    rw [buildCandidates_eq] at hcand
    exact (List.mem_filter.mp hcand).1
  have hv2 := (mem_valid_cells pz.grid cell).mp hvalid2
  refine ⟨cell, hcand, hv2.2, ?_⟩
  have hcl := all_cells_eq_cellAt hwf hv2.1
  rw [← hcol, ← hrow]
  exact hcl.2.2

/-- C10 witness: the invariant instantiated on the clue-free 2 by 2
puzzle at a concrete leaf of its search. -/
theorem c10_witness :
    exPuzzle2x2.grid.wf = true ∧
    [0, 1] ∈ btGo (puzzleCandCols exPuzzle2x2) ["Alice", "Bob"]
      exPuzzle2x2.people.length 0 [] [] ∧
    (([0, 1] : List Nat).Nodup ∧ ([0, 1] : List Nat).length = exPuzzle2x2.people.length ∧
      ∀ i, i < exPuzzle2x2.people.length →
        ∃ cell, cell ∈ buildCandidates exPuzzle2x2 (["Alice", "Bob"].getD i "") ∧
          cell.is_blocked = false ∧
          exPuzzle2x2.grid.cellAt i (([0, 1] : List Nat).getD i 0) = cell) :=
  ⟨by decide, by decide,
    c10_gamestate_invariant.2 exPuzzle2x2 ["Alice", "Bob"] [0, 1] (by decide) (by decide)⟩

/-! Termination of the backtracking search (claim C9). -/

/-- mapM over Option succeeds pointwise. -/
theorem mapM_eq_some_map {α β : Type} (f : α → Option β) (g : α → β) :
    ∀ (l : List α), (∀ x ∈ l, f x = some (g x)) → l.mapM f = some (l.map g) := by
  intro l
  induction l with
  | nil => intro _; rfl
  | cons a t ih =>
      intro h
      rw [List.mapM_cons, h a (List.mem_cons_self a t),
        ih (fun x hx => h x (List.mem_cons_of_mem a hx))]
      rfl

/-- The fuelled backtrack recursion, given one unit of fuel per remaining
row plus one for the leaf test, never exhausts its fuel and agrees with
the total model: from row i with i <= n the recursion depth is exactly
n - i. -/
theorem btGoF_adequate (cand : String → Nat → List Nat) (ro : List String)
    (n : Nat) : ∀ (k i : Nat), i + k = n → ∀ (used pre : List Nat),
    btGoF cand ro n (k + 1) i used pre = some (btGo cand ro k i used pre) := by
  intro k
  induction k with
  | zero =>
      intro i hik used pre
      have hin : i = n := by omega
      simp [btGoF, btGo, hin]
  | succ k ih =>
      intro i hik used pre
      have hin : ¬(i = n) := by omega
      conv_lhs => rw [btGoF]
      rw [if_neg hin]
      rw [mapM_eq_some_map _
        (fun col => btGo cand ro k (i + 1) (col :: used) (pre ++ [col])) _
        (fun col _ => ih (i + 1) (by omega) (col :: used) (pre ++ [col]))]
      rw [Option.map_some']
      rw [btGo]
      rw [List.flatMap_def]

/-- C9: the search terminates on every input.  Row-order enumeration
ranges over the finite list of N! permutations of the people list, and
for every accepted row order the column backtracking from row i needs
recursion depth exactly N - i: with that much fuel the fuelled recursion
(whose leaf test row_idx == n is the source's) returns without
exhausting its fuel, on every branch, and equals the total model. -/
theorem c9_search_terminates :
    (∀ (pz : Puzzle), (pz.people.permutations').length = pz.people.length.factorial) ∧
    (∀ (cand : String → Nat → List Nat) (ro : List String) (n i : Nat)
        (used pre : List Nat), i ≤ n →
      btGoF cand ro n (n - i + 1) i used pre =
        some (btGo cand ro (n - i) i used pre)) := by
  constructor
  · intro pz
    rw [← (List.permutations_perm_permutations' pz.people).length_eq]
    exact List.length_permutations pz.people
  · intro cand ro n i used pre hi
    exact btGoF_adequate cand ro n (n - i) i (by omega) used pre

/-- C9 witness: the fuel bound instantiated on a one-person search. -/
theorem c9_witness :
    (0 : Nat) ≤ 1 ∧
      btGoF (fun _ _ => [0]) ["a"] 1 2 0 [] [] =
        some (btGo (fun _ _ => [0]) ["a"] 1 0 [] []) :=
  ⟨by decide, c9_search_terminates.2 (fun _ _ => [0]) ["a"] 1 0 [] [] (by decide)⟩

/-! Placement positions of a duplicate-free row order. -/

/-- The position dictionary of a duplicate-free row order maps the person
of row i to (i, col_perm at i). -/
theorem position?_eq_some {ro : List String} {cp : List Nat} {g : Grid} {p : String}
    (hnd : ro.Nodup) {i : Nat} (hi : i < ro.length) (hp : ro.getD i "" = p) :
    (GameState.mk ro cp g).position? p = some (i, cp.getD i 0) := by
  unfold GameState.position?
  apply dictLookup_of_nodup_keys
  · have hkeys : (ro.enum.map (fun ip => (ip.2, (ip.1, cp.getD ip.1 0)))).map Prod.fst
        = ro := by
      rw [List.map_map]
      exact List.enum_map_snd ro
    rw [hkeys]
    exact hnd
  · apply List.mem_map.mpr
    refine ⟨(i, p), ?_, rfl⟩
    apply List.mem_enum_iff_getElem?.mpr
    rw [List.getElem?_eq_getElem hi]
    rw [← hp, List.getD_eq_getElem ro "" hi]

/-- GameState.position of the person stored at row i. -/
theorem position_eq {ro : List String} {cp : List Nat} {g : Grid} {p : String}
    (hnd : ro.Nodup) {i : Nat} (hi : i < ro.length) (hp : ro.getD i "" = p) :
    (GameState.mk ro cp g).position p = (i, cp.getD i 0) := by
  unfold GameState.position
  rw [position?_eq_some hnd hi hp]
  rfl

/-- Any member of a list sits at some index, stated through getD. -/
theorem exists_getD_of_mem {l : List String} {p : String} (h : p ∈ l) :
    ∃ i, i < l.length ∧ l.getD i "" = p := by
  obtain ⟨i, hi, he⟩ := List.getElem_of_mem h
  exact ⟨i, hi, by rw [List.getD_eq_getElem l "" hi, he]⟩

/-- Reading a dictionary concatenation prefers the later bindings. -/
theorem dictLookup_append {α β : Type} [DecidableEq α] (l1 l2 : List (α × β)) (k : α) :
    dictLookup (l1 ++ l2) k =
      match dictLookup l2 k with
      | some v => some v
      | none => dictLookup l1 k := by
  unfold dictLookup
  rw [List.foldl_append]
  exact dictLookup_foldl l2 k _

/-- Writing a binding list into an array by repeated set, read back at an
in-range index: the last binding for that index wins, the initial value
shows through when there is none. -/
theorem foldl_set_getD (l : List (Nat × Nat)) :
    ∀ (init : List Nat) (r : Nat), r < init.length →
    ((l.foldl (fun acc rc => acc.set rc.1 rc.2) init).getD r 0) =
      match dictLookup l r with
      | some v => v
      | none => init.getD r 0 := by
  induction l with
  | nil => intro init r _; simp [dictLookup]
  | cons a l ih =>
      intro init r hr
      rw [List.foldl_cons, dictLookup_cons]
      rw [ih (init.set a.1 a.2) r (by simpa using hr)]
      cases h : dictLookup l r with
      | some v => simp
      | none =>
          simp only []
          by_cases hak : a.1 = r
          · rw [if_pos hak]
            rw [List.getD_eq_getElem _ 0 (by simpa using hr)]
            rw [List.getElem_set]
            rw [if_pos hak]
          · rw [if_neg hak]
            rw [List.getD_eq_getElem _ 0 (by simpa using hr),
              List.getD_eq_getElem init 0 hr]
            rw [List.getElem_set]
            rw [if_neg hak]

/-- Repeated set preserves length. -/
theorem foldl_set_length (l : List (Nat × Nat)) :
    ∀ (init : List Nat),
    (l.foldl (fun acc rc => acc.set rc.1 rc.2) init).length = init.length := by
  induction l with
  | nil => intro init; rfl
  | cons a l ih => intro init; rw [List.foldl_cons, ih]; exact List.length_set ..

/-! Well-formed puzzles: the domain on which both solvers run without a
Python-level KeyError or IndexError, matching the construction-time
validation the specification requires of the loader. -/

/-- Per-clue well-formedness: every referenced person is one of the
puzzle's people, at_column columns lie inside an n-wide grid, and object
arguments of the name-parsed object kinds are not the synthetic VOID. -/
def clueOK (n : Nat) (people : List String) : Clue → Bool
  | .in_room p _ _ => decide (p ∈ people)
  | .on_object p obj _ => decide (p ∈ people) && decide (obj ≠ ObjectType.void)
  | .only_on_object p obj => decide (p ∈ people) && decide (obj ≠ ObjectType.void)
  | .only_one_person_on _ => true
  | .next_to_object p obj _ => decide (p ∈ people) && decide (obj ≠ ObjectType.void)
  | .in_corner p => decide (p ∈ people)
  | .not_next_to_wall p => decide (p ∈ people)
  | .below_person p t => decide (p ∈ people) && decide (t ∈ people)
  | .above_person p t => decide (p ∈ people) && decide (t ∈ people)
  | .at_column p col => decide (p ∈ people) && decide (col < n)
  | .alone_with_murderer v => decide (v ∈ people)
  | .with_person p t _ => decide (p ∈ people) && decide (t ∈ people)
  | .alone_in_room p _ => decide (p ∈ people)
  | .only_with_person p t => decide (p ∈ people) && decide (t ∈ people)
  | .left_of p _ _ => decide (p ∈ people)
  | .same_column_as_object p _ _ => decide (p ∈ people)

/-- Puzzle well-formedness for the solver-agreement theorem: coherent
grid, duplicate-free people containing the victim, a square grid whose
side is the number of people, and well-formed clues. -/
def puzzleOK (pz : Puzzle) : Bool :=
  pz.grid.wf && decide pz.people.Nodup && decide (pz.victim ∈ pz.people) &&
    decide (pz.grid.n_rows = pz.people.length) &&
    decide (pz.grid.n_cols = pz.people.length) &&
    pz.clues.all (clueOK pz.people.length pz.people)

/-- The at_column binding a clue contributes to the col_fixed dictionary. -/
def colFixedOf : Clue → Option (String × Nat)
  | .at_column p col => some (p, col)
  | _ => none

set_option linter.unnecessarySeqFocus false in
theorem parseConstraints_colFixed_aux :
    ∀ (clues : List Clue)
      (acc : List (String × String) × List (String × String) × List (String × Nat)),
    (clues.foldl
      (fun acc c =>
        match c with
        | .above_person p t => (acc.1 ++ [(p, t)], acc.2.1, acc.2.2)
        | .below_person p t => (acc.1, acc.2.1 ++ [(p, t)], acc.2.2)
        | .at_column p col => (acc.1, acc.2.1, acc.2.2 ++ [(p, col)])
        | _ => acc)
      acc).2.2 = acc.2.2 ++ clues.filterMap colFixedOf := by
  intro clues
  induction clues with
  | nil => intro acc; simp
  | cons c rest ih =>
      intro acc
      rw [List.foldl_cons, List.filterMap_cons]
      cases c <;> simp only [colFixedOf] <;> rw [ih] <;> simp

/-- The col_fixed dictionary is the list of at_column bindings in clue
order. -/
theorem parseConstraints_colFixed (clues : List Clue) :
    (parseConstraints clues).2.2 = clues.filterMap colFixedOf := by
  unfold parseConstraints
  rw [parseConstraints_colFixed_aux clues ([], [], [])]
  simp

/-- col_fixed bindings are exactly the at_column clues. -/
theorem mem_colFixedOf (clues : List Clue) (p : String) (col : Nat) :
    (p, col) ∈ clues.filterMap colFixedOf ↔ Clue.at_column p col ∈ clues := by
  rw [List.mem_filterMap]
  constructor
  · rintro ⟨c, hc, he⟩
    cases c <;> simp only [colFixedOf] at he <;> try exact Option.noConfusion he
    have he2 := Option.some.inj he
    have hp : _ = p := congrArg Prod.fst he2
    have hcol : _ = col := congrArg Prod.snd he2
    rw [← hp, ← hcol]
    exact hc
  · intro hc
    exact ⟨Clue.at_column p col, hc, rfl⟩

/-- The fixed-assignment pass without its abort-on-clash behaviour: every
(row, column) pair the row order demands through the at_column
dictionary, in ascending row order starting at row i. -/
def specFixedFrom (colFixed : List (String × Nat)) :
    List String → Nat → List (Nat × Nat)
  | [], _ => []
  | p :: rest, i =>
      match dictLookup colFixed p with
      | none => specFixedFrom colFixed rest (i + 1)
      | some col => (i, col) :: specFixedFrom colFixed rest (i + 1)

/-- buildFixedGo computes the specification list, aborting exactly when
its columns repeat. -/
theorem buildFixedGo_eq (colFixed : List (String × Nat)) :
    ∀ (rest : List String) (i : Nat) (fixed : List (Nat × Nat)),
    (fixed.map Prod.snd).Nodup →
    buildFixedGo colFixed rest i fixed =
      if ((fixed ++ specFixedFrom colFixed rest i).map Prod.snd).Nodup
      then some (fixed ++ specFixedFrom colFixed rest i)
      else none := by
  intro rest
  induction rest with
  | nil =>
      intro i fixed hnd
      simp [buildFixedGo, specFixedFrom, hnd]
  | cons p rest ih =>
      intro i fixed hnd
      rw [buildFixedGo, specFixedFrom]
      cases hdl : dictLookup colFixed p with
      | none =>
          simp only []
          exact ih (i + 1) fixed hnd
      | some col =>
          simp only []
          by_cases hclash : (fixed.map Prod.snd).contains col
          · rw [if_pos hclash]
            have hdup : ¬((fixed ++ (i, col) :: specFixedFrom colFixed rest (i + 1)).map
                Prod.snd).Nodup := by
              rw [List.map_append, List.nodup_append]
              intro hcontra
              exact hcontra.2.2 (by simpa using hclash) (by simp)
            rw [if_neg hdup]
          · rw [if_neg hclash]
            have hnd2 : ((fixed ++ [(i, col)]).map Prod.snd).Nodup := by
              rw [List.map_append, List.nodup_append]
              refine ⟨hnd, by simp, ?_⟩
              intro x hx hx2
              simp only [List.map_cons, List.map_nil, List.mem_singleton] at hx2
              rw [hx2] at hx
              exact (by simpa using hclash : col ∉ fixed.map Prod.snd) hx
            rw [ih (i + 1) (fixed ++ [(i, col)]) hnd2]
            rw [List.append_assoc]
            rfl

/-- buildFixed computes the specification list of the whole row order,
failing exactly when two demanded columns coincide. -/
theorem buildFixed_eq (colFixed : List (String × Nat)) (ro : List String) :
    buildFixed colFixed ro =
      if ((specFixedFrom colFixed ro 0).map Prod.snd).Nodup
      then some (specFixedFrom colFixed ro 0) else none := by
  unfold buildFixed
  rw [buildFixedGo_eq colFixed ro 0 [] (by simp)]
  simp

/-- Membership in the specification list. -/
theorem mem_specFixedFrom (colFixed : List (String × Nat)) :
    ∀ (rest : List String) (i : Nat) (r c : Nat),
    (r, c) ∈ specFixedFrom colFixed rest i ↔
      ∃ j, j < rest.length ∧ r = i + j ∧
        dictLookup colFixed (rest.getD j "") = some c := by
  intro rest
  induction rest with
  | nil => intro i r c; simp [specFixedFrom]
  | cons p rest ih =>
      intro i r c
      rw [specFixedFrom]
      cases hdl : dictLookup colFixed p with
      | none =>
          simp only []
          rw [ih (i + 1) r c]
          constructor
          · rintro ⟨j, hj, hr, hd⟩
            exact ⟨j + 1, by simpa using hj, by omega, by simpa using hd⟩
          · rintro ⟨j, hj, hr, hd⟩
            cases j with
            | zero =>
                rw [List.getD_cons_zero] at hd
                rw [hdl] at hd
                exact Option.noConfusion hd
            | succ j2 =>
                exact ⟨j2, by simpa using hj, by omega, by simpa using hd⟩
      | some col =>
          simp only [List.mem_cons]
          rw [ih (i + 1) r c]
          constructor
          · rintro (he | ⟨j, hj, hr, hd⟩)
            · have hr : r = i := congrArg Prod.fst he
              have hc : c = col := congrArg Prod.snd he
              exact ⟨0, by simp, by omega, by rw [List.getD_cons_zero, hdl, hc]⟩
            · exact ⟨j + 1, by simpa using hj, by omega, by simpa using hd⟩
          · rintro ⟨j, hj, hr, hd⟩
            cases j with
            | zero =>
                rw [List.getD_cons_zero, hdl] at hd
                left
                rw [hr]
                have : col = c := Option.some.inj hd
                rw [this]
                norm_num
            | succ j2 =>
                right
                exact ⟨j2, by simpa using hj, by omega, by simpa using hd⟩

/-- Rows listed by the specification list start at i. -/
theorem specFixedFrom_row_ge (colFixed : List (String × Nat)) :
    ∀ (rest : List String) (i : Nat) (rc : Nat × Nat),
    rc ∈ specFixedFrom colFixed rest i → i ≤ rc.1 := by
  intro rest
  induction rest with
  | nil => intro i rc h; simp [specFixedFrom] at h
  | cons p rest ih =>
      intro i rc h
      rw [specFixedFrom] at h
      cases hdl : dictLookup colFixed p with
      | none =>
          rw [hdl] at h
          have := ih (i + 1) rc h
          omega
      | some col =>
          rw [hdl] at h
          rcases List.mem_cons.mp h with he | hm
          · rw [he]
          · have := ih (i + 1) rc hm
            omega

/-- The specification list never repeats a row. -/
theorem specFixedFrom_rows_nodup (colFixed : List (String × Nat)) :
    ∀ (rest : List String) (i : Nat),
    ((specFixedFrom colFixed rest i).map Prod.fst).Nodup := by
  intro rest
  induction rest with
  | nil => intro i; simp [specFixedFrom]
  | cons p rest ih =>
      intro i
      rw [specFixedFrom]
      cases hdl : dictLookup colFixed p with
      | none => exact ih (i + 1)
      | some col =>
          simp only [List.map_cons, List.nodup_cons]
          refine ⟨?_, ih (i + 1)⟩
          intro hmem
          simp only [List.mem_map] at hmem
          obtain ⟨rc, hrc, hfst⟩ := hmem
          have := specFixedFrom_row_ge colFixed rest (i + 1) rc hrc
          omega

/-! Generic permutation helpers. -/

/-- Two duplicate-free lists of equal length with one included in the
other are permutations of each other. -/
theorem perm_of_nodup_subset_length {l1 l2 : List Nat} (h1 : l1.Nodup) (h2 : l2.Nodup)
    (hsub : ∀ x ∈ l1, x ∈ l2) (hlen : l1.length = l2.length) : List.Perm l1 l2 := by
  apply (List.perm_ext_iff_of_nodup h1 h2).mpr
  intro a
  constructor
  · exact hsub a
  · intro ha
    have hfin : l1.toFinset ⊆ l2.toFinset := fun x hx =>
      List.mem_toFinset.mpr (hsub x (List.mem_toFinset.mp hx))
    have hcard1 : l1.toFinset.card = l1.length := List.toFinset_card_of_nodup h1
    have hcard2 : l2.toFinset.card = l2.length := List.toFinset_card_of_nodup h2
    have heq : l1.toFinset = l2.toFinset :=
      Finset.eq_of_subset_of_card_le hfin (by omega)
    rw [← List.mem_toFinset, heq, List.mem_toFinset]
    exact ha

/-- A duplicate-free list of n values below n is a permutation of
range n. -/
theorem perm_range_of_nodup_lt {cp : List Nat} {n : Nat} (hlen : cp.length = n)
    (hnd : cp.Nodup) (hlt : ∀ x ∈ cp, x < n) : List.Perm cp (List.range n) :=
  perm_of_nodup_subset_length hnd (List.nodup_range n)
    (fun x hx => List.mem_range.mpr (hlt x hx)) (by simp [hlen])

/-- Reading a duplicate-free list at two in-range positions gives equal
values only at equal positions. -/
theorem nodup_getD_inj {cp : List Nat} (hnd : cp.Nodup) {r1 r2 : Nat}
    (h1 : r1 < cp.length) (h2 : r2 < cp.length)
    (he : cp.getD r1 0 = cp.getD r2 0) : r1 = r2 := by
  by_contra hne
  rw [List.nodup_iff_getElem?_ne_getElem?] at hnd
  rcases Nat.lt_or_ge r1 r2 with hlt | hge
  · apply hnd r1 r2 hlt h2
    rw [List.getElem?_eq_getElem (by omega), List.getElem?_eq_getElem h2]
    rw [List.getD_eq_getElem cp 0 h1, List.getD_eq_getElem cp 0 h2] at he
    rw [he]
  · have hlt : r2 < r1 := by omega
    apply hnd r2 r1 hlt h1
    rw [List.getElem?_eq_getElem (by omega), List.getElem?_eq_getElem h1]
    rw [List.getD_eq_getElem cp 0 h1, List.getD_eq_getElem cp 0 h2] at he
    rw [he]

/-- In-range reads of a list are members. -/
theorem getD_mem {l : List Nat} {r : Nat} (h : r < l.length) : l.getD r 0 ∈ l := by
  rw [List.getD_eq_getElem l 0 h]
  exact List.getElem_mem h

/-- Any member of a Nat list sits at some index, through getD. -/
theorem exists_getD_of_mem_nat {l : List Nat} {x : Nat} (h : x ∈ l) :
    ∃ i, i < l.length ∧ l.getD i 0 = x := by
  obtain ⟨i, hi, he⟩ := List.getElem_of_mem h
  exact ⟨i, hi, by rw [List.getD_eq_getElem l 0 hi, he]⟩

/-! Pointwise description of the assembled column permutation. -/

/-- buildColPerm always has length n. -/
theorem buildColPerm_length (n : Nat) (fixed : List (Nat × Nat))
    (freeRows perm : List Nat) :
    (buildColPerm n fixed freeRows perm).length = n := by
  unfold buildColPerm
  rw [foldl_set_length, foldl_set_length]
  exact List.length_replicate ..

/-- buildColPerm read back at an in-range row: the last write at that row
wins (zip writes after fixed writes), zero where nothing was written. -/
theorem buildColPerm_getD (n : Nat) (fixed : List (Nat × Nat))
    (freeRows perm : List Nat) (r : Nat) (hr : r < n) :
    (buildColPerm n fixed freeRows perm).getD r 0 =
      match dictLookup (fixed ++ freeRows.zip perm) r with
      | some v => v
      | none => 0 := by
  unfold buildColPerm
  rw [← List.foldl_append]
  rw [foldl_set_getD _ _ r (by simp [hr])]
  cases dictLookup (fixed ++ freeRows.zip perm) r with
  | some v => rfl
  | none => simp

/-! Zip dictionaries and filter complements. -/

/-- Lookup in the zip dictionary of a duplicate-free, fully-zipped key
list finds the value at the key's index. -/
theorem dictLookup_zip_getD {freeRows perm : List Nat} (hnd : freeRows.Nodup)
    (hlen : freeRows.length = perm.length) {j : Nat} (hj : j < freeRows.length) :
    dictLookup (freeRows.zip perm) (freeRows.getD j 0) = some (perm.getD j 0) := by
  apply dictLookup_of_nodup_keys
  · rw [List.map_fst_zip freeRows perm (by omega)]
    exact hnd
  · have hjz : j < (freeRows.zip perm).length := by rw [List.length_zip]; omega
    have hjp : j < perm.length := by omega
    have hz : (freeRows.zip perm)[j] = (freeRows[j], perm[j]) :=
      List.getElem_zip
    rw [List.getD_eq_getElem freeRows 0 hj, List.getD_eq_getElem perm 0 (by omega)]
    rw [← hz]
    exact List.getElem_mem hjz

/-- Keys outside the key list find nothing in the zip dictionary. -/
theorem dictLookup_zip_none {freeRows perm : List Nat} {r : Nat}
    (hr : r ∉ freeRows) : dictLookup (freeRows.zip perm) r = none := by
  rw [dictLookup_eq_none]
  rintro ⟨a, b⟩ he hk
  simp only [] at hk
  rw [hk] at he
  exact hr (List.of_mem_zip he).1

/-- Some-values of the zip dictionary come from a shared index. -/
theorem dictLookup_zip_some {freeRows perm : List Nat} {r v : Nat}
    (h : dictLookup (freeRows.zip perm) r = some v) :
    ∃ j, j < freeRows.length ∧ j < perm.length ∧
      freeRows.getD j 0 = r ∧ perm.getD j 0 = v := by
  have hm := dictLookup_mem h
  obtain ⟨j, hj, he⟩ := List.getElem_of_mem hm
  have hj2 : j < freeRows.length := by rw [List.length_zip] at hj; omega
  have hj3 : j < perm.length := by rw [List.length_zip] at hj; omega
  have hz : (freeRows.zip perm)[j] = (freeRows[j], perm[j]) := List.getElem_zip
  rw [hz] at he
  refine ⟨j, hj2, hj3, ?_, ?_⟩
  · rw [List.getD_eq_getElem freeRows 0 hj2]
    exact congrArg Prod.fst he
  · rw [List.getD_eq_getElem perm 0 hj3]
    exact congrArg Prod.snd he

/-- The complement filter of a duplicate-free subset of range n has the
complementary length. -/
theorem length_filter_not_contains {S : List Nat} (n : Nat) (hnd : S.Nodup)
    (hsub : ∀ x ∈ S, x < n) :
    ((List.range n).filter (fun r => !S.contains r)).length = n - S.length := by
  have hpart := List.length_eq_length_filter_add (l := List.range n)
    (fun r => S.contains r)
  have hin : ((List.range n).filter (fun r => S.contains r)).length = S.length := by
    have hperm : List.Perm ((List.range n).filter (fun r => S.contains r)) S := by
      apply (List.perm_ext_iff_of_nodup ((List.nodup_range n).filter _) hnd).mpr
      intro a
      rw [List.mem_filter]
      simp only [List.mem_range, List.elem_iff]
      constructor
      · exact fun h => h.2
      · intro h
        exact ⟨hsub a h, h⟩
    exact hperm.length_eq
  have hlen : (List.range n).length = n := List.length_range n
  omega

/-! Characterisation of the brute-force column-permutation generator. -/

/-- Membership in a complement filter of range n. -/
theorem mem_free_filter (S : List Nat) (n r : Nat) :
    r ∈ (List.range n).filter (fun x => !S.contains x) ↔ r < n ∧ r ∉ S := by
  rw [List.mem_filter]
  simp [List.elem_iff]

/-- A complement filter of range n has no duplicates. -/
theorem nodup_free_filter (S : List Nat) (n : Nat) :
    ((List.range n).filter (fun x => !S.contains x)).Nodup :=
  (List.nodup_range n).filter _

/-- The pointwise value of the assembled column permutation: the fixed
column at a fixed row. -/
theorem buildColPerm_getD_fixed {n : Nat} {fixed : List (Nat × Nat)}
    {perm : List Nat} (hfst : (fixed.map Prod.fst).Nodup)
    {r c : Nat} (hmem : (r, c) ∈ fixed) (hr : r < n) :
    (buildColPerm n fixed
      ((List.range n).filter (fun x => !((fixed.map Prod.fst).contains x))) perm).getD
        r 0 = c := by
  rw [buildColPerm_getD n fixed _ perm r hr]
  rw [dictLookup_append]
  have hnotfree : r ∉ (List.range n).filter
      (fun x => !((fixed.map Prod.fst).contains x)) := by
    rw [mem_free_filter]
    intro hcontra
    exact hcontra.2 (List.mem_map_of_mem Prod.fst hmem)
  rw [dictLookup_zip_none hnotfree]
  rw [dictLookup_of_nodup_keys hfst hmem]

/-- The pointwise value at a free row: the permuted column at the row's
index among the free rows. -/
theorem buildColPerm_getD_free {n : Nat} {fixed : List (Nat × Nat)}
    {perm : List Nat}
    (hlen : ((List.range n).filter
      (fun x => !((fixed.map Prod.fst).contains x))).length = perm.length)
    {j : Nat}
    (hj : j < ((List.range n).filter
      (fun x => !((fixed.map Prod.fst).contains x))).length) :
    (buildColPerm n fixed
      ((List.range n).filter (fun x => !((fixed.map Prod.fst).contains x))) perm).getD
        (((List.range n).filter
          (fun x => !((fixed.map Prod.fst).contains x))).getD j 0) 0 =
      perm.getD j 0 := by
  have hrfree : ((List.range n).filter
      (fun x => !((fixed.map Prod.fst).contains x))).getD j 0 ∈
        (List.range n).filter (fun x => !((fixed.map Prod.fst).contains x)) :=
    getD_mem hj
  have hrn : ((List.range n).filter
      (fun x => !((fixed.map Prod.fst).contains x))).getD j 0 < n :=
    ((mem_free_filter _ n _).mp hrfree).1
  rw [buildColPerm_getD n fixed _ perm _ hrn]
  rw [dictLookup_append]
  rw [dictLookup_zip_getD (nodup_free_filter _ n) hlen hj]

/-- A list whose in-range reads are injective has no duplicates. -/
theorem nodup_of_getD_inj {l : List Nat}
    (h : ∀ r1 r2, r1 < l.length → r2 < l.length →
      l.getD r1 0 = l.getD r2 0 → r1 = r2) : l.Nodup := by
  rw [List.nodup_iff_getElem?_ne_getElem?]
  intro i j hij hj hc
  have hi : i < l.length := by omega
  have heq : l.getD i 0 = l.getD j 0 := by
    rw [List.getD_eq_getElem l 0 hi, List.getD_eq_getElem l 0 hj]
    rw [List.getElem?_eq_getElem hi, List.getElem?_eq_getElem hj] at hc
    exact Option.some.inj hc
  have := h i j hi hj heq
  omega

/-- The assembled column permutation of a valid fixed assignment and a
permutation of the free columns is a permutation of range n that honours
every fixed binding. -/
theorem buildColPerm_props {n : Nat} {fixed : List (Nat × Nat)} {perm : List Nat}
    (hfst : (fixed.map Prod.fst).Nodup) (hsnd : (fixed.map Prod.snd).Nodup)
    (hrows : ∀ rc ∈ fixed, rc.1 < n) (hcols : ∀ rc ∈ fixed, rc.2 < n)
    (hperm : List.Perm perm
      ((List.range n).filter (fun c => !((fixed.map Prod.snd).contains c)))) :
    List.Perm
      (buildColPerm n fixed
        ((List.range n).filter (fun r => !((fixed.map Prod.fst).contains r))) perm)
      (List.range n) ∧
    ∀ rc ∈ fixed,
      (buildColPerm n fixed
        ((List.range n).filter (fun r => !((fixed.map Prod.fst).contains r))) perm).getD
          rc.1 0 = rc.2 := by
  have hfixval : ∀ rc ∈ fixed,
      (buildColPerm n fixed
        ((List.range n).filter (fun r => !((fixed.map Prod.fst).contains r))) perm).getD
          rc.1 0 = rc.2 := by
    intro rc hrc
    exact buildColPerm_getD_fixed hfst (Prod.mk.eta ▸ hrc) (hrows rc hrc)
  have hfrlen : ((List.range n).filter
      (fun r => !((fixed.map Prod.fst).contains r))).length = n - fixed.length := by
    have := length_filter_not_contains n hfst (fun x hx => by
      obtain ⟨rc, hrc, hrc1⟩ := List.mem_map.mp hx
      rw [← hrc1]
      exact hrows rc hrc)
    simpa using this
  have hfclen : ((List.range n).filter
      (fun c => !((fixed.map Prod.snd).contains c))).length = n - fixed.length := by
    have := length_filter_not_contains n hsnd (fun x hx => by
      obtain ⟨rc, hrc, hrc1⟩ := List.mem_map.mp hx
      rw [← hrc1]
      exact hcols rc hrc)
    simpa using this
  have hpermlen : perm.length = ((List.range n).filter
      (fun c => !((fixed.map Prod.snd).contains c))).length := hperm.length_eq
  have hfl : ((List.range n).filter
      (fun r => !((fixed.map Prod.fst).contains r))).length = perm.length := by omega
  have hpermnd : perm.Nodup := hperm.nodup_iff.mpr (nodup_free_filter _ n)
  have hval : ∀ r, r < n →
      (∃ rc ∈ fixed, rc.1 = r ∧
        (buildColPerm n fixed
          ((List.range n).filter (fun x => !((fixed.map Prod.fst).contains x))) perm).getD
            r 0 = rc.2) ∨
      (∃ j, j < perm.length ∧
        ((List.range n).filter
          (fun x => !((fixed.map Prod.fst).contains x))).getD j 0 = r ∧
        (buildColPerm n fixed
          ((List.range n).filter (fun x => !((fixed.map Prod.fst).contains x))) perm).getD
            r 0 = perm.getD j 0) := by
    intro r hr
    by_cases hrf : r ∈ fixed.map Prod.fst
    · obtain ⟨rc, hrc, hrc1⟩ := List.mem_map.mp hrf
      left
      refine ⟨rc, hrc, hrc1, ?_⟩
      rw [← hrc1]
      exact hfixval rc hrc
    · have hmem : r ∈ (List.range n).filter
          (fun x => !((fixed.map Prod.fst).contains x)) :=
        (mem_free_filter _ n r).mpr ⟨hr, hrf⟩
      obtain ⟨j, hj, hjr⟩ := exists_getD_of_mem_nat hmem
      right
      refine ⟨j, by omega, hjr, ?_⟩
      rw [← hjr]
      exact buildColPerm_getD_free hfl hj
  have hlen : (buildColPerm n fixed
      ((List.range n).filter (fun r => !((fixed.map Prod.fst).contains r))) perm).length
        = n := buildColPerm_length ..
  refine ⟨?_, hfixval⟩
  apply perm_range_of_nodup_lt hlen
  · apply nodup_of_getD_inj
    rw [hlen]
    intro r1 r2 h1 h2 he
    rcases hval r1 h1 with ⟨rc1, hrc1, hr1, hv1⟩ | ⟨j1, hj1, hr1, hv1⟩ <;>
      rcases hval r2 h2 with ⟨rc2, hrc2, hr2, hv2⟩ | ⟨j2, hj2, hr2, hv2⟩
    · have hc12 : rc1.2 = rc2.2 := by rw [← hv1, ← hv2, he]
      have := List.inj_on_of_nodup_map hsnd hrc1 hrc2 hc12
      rw [← hr1, ← hr2, this]
    · have hin : rc1.2 ∈ fixed.map Prod.snd := List.mem_map_of_mem Prod.snd hrc1
      have hpv : perm.getD j2 0 ∈ perm := getD_mem hj2
      have hfc := hperm.mem_iff.mp hpv
      rw [mem_free_filter] at hfc
      exact absurd (by rw [← hv2, ← he, hv1]; exact hin) hfc.2
    · have hin : rc2.2 ∈ fixed.map Prod.snd := List.mem_map_of_mem Prod.snd hrc2
      have hpv : perm.getD j1 0 ∈ perm := getD_mem hj1
      have hfc := hperm.mem_iff.mp hpv
      rw [mem_free_filter] at hfc
      exact absurd (by rw [← hv1, he, hv2]; exact hin) hfc.2
    · have hpe : perm.getD j1 0 = perm.getD j2 0 := by rw [← hv1, ← hv2, he]
      have := nodup_getD_inj hpermnd hj1 hj2 hpe
      rw [← hr1, ← hr2, this]
  · intro x hx
    obtain ⟨r, hr, hrx⟩ := exists_getD_of_mem_nat hx
    rw [hlen] at hr
    rcases hval r hr with ⟨rc, hrc, _, hv⟩ | ⟨j, hj, _, hv⟩
    · rw [← hrx, hv]
      exact hcols rc hrc
    · rw [← hrx, hv]
      have hpv : perm.getD j 0 ∈ perm := getD_mem hj
      have hfc := hperm.mem_iff.mp hpv
      rw [mem_free_filter] at hfc
      exact hfc.1

/-- Every permutation of range n honouring the fixed bindings arises
from the assembly step: its free-row values form a permutation of the
free columns and assemble back to it. -/
theorem buildColPerm_preimage {n : Nat} {fixed : List (Nat × Nat)} {cp : List Nat}
    (hfst : (fixed.map Prod.fst).Nodup) (hsnd : (fixed.map Prod.snd).Nodup)
    (hrows : ∀ rc ∈ fixed, rc.1 < n) (hcols : ∀ rc ∈ fixed, rc.2 < n)
    (hcp : List.Perm cp (List.range n))
    (hfix : ∀ rc ∈ fixed, cp.getD rc.1 0 = rc.2) :
    List.Perm
      (((List.range n).filter (fun r => !((fixed.map Prod.fst).contains r))).map
        (fun r => cp.getD r 0))
      ((List.range n).filter (fun c => !((fixed.map Prod.snd).contains c))) ∧
    buildColPerm n fixed
      ((List.range n).filter (fun r => !((fixed.map Prod.fst).contains r)))
      (((List.range n).filter (fun r => !((fixed.map Prod.fst).contains r))).map
        (fun r => cp.getD r 0)) = cp := by
  have hcplen : cp.length = n := by
    have := hcp.length_eq
    simpa using this
  have hcpnd : cp.Nodup := hcp.nodup_iff.mpr (List.nodup_range n)
  have hcplt : ∀ x ∈ cp, x < n := fun x hx => List.mem_range.mp (hcp.mem_iff.mp hx)
  have hfrlen : ((List.range n).filter
      (fun r => !((fixed.map Prod.fst).contains r))).length = n - fixed.length := by
    have := length_filter_not_contains n hfst (fun x hx => by
      obtain ⟨rc, hrc, hrc1⟩ := List.mem_map.mp hx
      rw [← hrc1]
      exact hrows rc hrc)
    simpa using this
  have hfclen : ((List.range n).filter
      (fun c => !((fixed.map Prod.snd).contains c))).length = n - fixed.length := by
    have := length_filter_not_contains n hsnd (fun x hx => by
      obtain ⟨rc, hrc, hrc1⟩ := List.mem_map.mp hx
      rw [← hrc1]
      exact hcols rc hrc)
    simpa using this
  have hpermm : List.Perm
      (((List.range n).filter (fun r => !((fixed.map Prod.fst).contains r))).map
        (fun r => cp.getD r 0))
      ((List.range n).filter (fun c => !((fixed.map Prod.snd).contains c))) := by
    apply perm_of_nodup_subset_length
    · apply List.Nodup.map_on ?_ (nodup_free_filter _ n)
      intro x hx y hy he
      rw [mem_free_filter] at hx hy
      exact nodup_getD_inj hcpnd (by omega) (by omega) he
    · exact nodup_free_filter _ n
    · intro x hx
      obtain ⟨r, hr, hrx⟩ := List.mem_map.mp hx
      rw [mem_free_filter] at hr
      rw [mem_free_filter]
      constructor
      · rw [← hrx]
        exact hcplt _ (getD_mem (by omega))
      · intro hcontra
        obtain ⟨rc, hrc, hrc2⟩ := List.mem_map.mp hcontra
        have hv2 : cp.getD rc.1 0 = x := by rw [hfix rc hrc, hrc2]
        have hre : rc.1 = r :=
          nodup_getD_inj hcpnd (by rw [hcplen]; exact hrows rc hrc) (by omega)
            (by rw [hv2, hrx])
        exact hr.2 (hre ▸ List.mem_map_of_mem Prod.fst hrc)
    · rw [List.length_map]
      omega
  refine ⟨hpermm, ?_⟩
  have hfl : ((List.range n).filter
      (fun r => !((fixed.map Prod.fst).contains r))).length =
      (((List.range n).filter (fun r => !((fixed.map Prod.fst).contains r))).map
        (fun r => cp.getD r 0)).length := by
    rw [List.length_map]
  apply List.ext_getElem
  · rw [buildColPerm_length, hcplen]
  · intro r hbl hcl
    have hrn : r < n := by rw [buildColPerm_length] at hbl; exact hbl
    rw [← List.getD_eq_getElem _ 0 hbl, ← List.getD_eq_getElem cp 0 hcl]
    by_cases hrf : r ∈ fixed.map Prod.fst
    · obtain ⟨rc, hrc, hrc1⟩ := List.mem_map.mp hrf
      rw [← hrc1]
      rw [buildColPerm_getD_fixed hfst
        (show (rc.1, rc.2) ∈ fixed from by rw [Prod.mk.eta]; exact hrc) (hrows rc hrc)]
      rw [hfix rc hrc]
    · have hmem : r ∈ (List.range n).filter
          (fun x => !((fixed.map Prod.fst).contains x)) :=
        (mem_free_filter _ n r).mpr ⟨hrn, hrf⟩
      obtain ⟨j, hj, hjr⟩ := exists_getD_of_mem_nat hmem
      rw [← hjr]
      rw [buildColPerm_getD_free hfl hj]
      rw [List.getD_eq_getElem _ 0 (by rw [List.length_map]; exact hj)]
      rw [List.getElem_map]
      rw [← List.getD_eq_getElem _ 0 hj]

/-- With no at_column clue, the generated column permutations are exactly
the permutations of range n. -/
theorem mem_colPerms_nil (ro : List String) (cp : List Nat) :
    cp ∈ colPerms [] ro ↔ List.Perm cp (List.range ro.length) := by
  unfold colPerms
  simp [List.mem_permutations']

/-- With a successfully built fixed assignment, the generated column
permutations are exactly the permutations of range n honouring it. -/
theorem mem_colPerms_some {colFixed : List (String × Nat)} {ro : List String}
    {fixed : List (Nat × Nat)}
    (hne : colFixed ≠ [])
    (hbf : buildFixed colFixed ro = some fixed)
    (hfst : (fixed.map Prod.fst).Nodup) (hsnd : (fixed.map Prod.snd).Nodup)
    (hrows : ∀ rc ∈ fixed, rc.1 < ro.length)
    (hcols : ∀ rc ∈ fixed, rc.2 < ro.length)
    (cp : List Nat) :
    cp ∈ colPerms colFixed ro ↔
      List.Perm cp (List.range ro.length) ∧ ∀ rc ∈ fixed, cp.getD rc.1 0 = rc.2 := by
  unfold colPerms
  rw [if_neg (by simp [hne])]
  rw [hbf]
  simp only [List.mem_map]
  constructor
  · rintro ⟨perm, hpm, rfl⟩
    exact buildColPerm_props hfst hsnd hrows hcols (List.mem_permutations'.mp hpm)
  · rintro ⟨hcp, hfix⟩
    obtain ⟨hpm, hbuild⟩ := buildColPerm_preimage hfst hsnd hrows hcols hcp hfix
    exact ⟨_, List.mem_permutations'.mpr hpm, hbuild⟩

/-- With a failed fixed assignment, no column permutation is generated. -/
theorem colPerms_none {colFixed : List (String × Nat)} {ro : List String}
    (hne : colFixed ≠ [])
    (hbf : buildFixed colFixed ro = none) :
    colPerms colFixed ro = [] := by
  unfold colPerms
  rw [if_neg (by simp [hne])]
  rw [hbf]

/-- The structurally recursive permutation enumerator has no duplicates
on duplicate-free input. -/
theorem nodup_permutations2 {l : List Nat} (h : l.Nodup) : l.permutations'.Nodup :=
  (List.permutations_perm_permutations' l).nodup_iff.mp (List.nodup_permutations l h)

/-- The generated column permutations contain no duplicates: the empty
dictionary case. -/
theorem nodup_colPerms_nil (ro : List String) : (colPerms [] ro).Nodup := by
  unfold colPerms
  simp only [List.isEmpty_nil, if_true]
  exact nodup_permutations2 (List.nodup_range _)

/-- The generated column permutations contain no duplicates: the
successfully built fixed assignment case. -/
theorem nodup_colPerms_some {colFixed : List (String × Nat)} {ro : List String}
    {fixed : List (Nat × Nat)}
    (hne : colFixed ≠ [])
    (hbf : buildFixed colFixed ro = some fixed)
    (hfst : (fixed.map Prod.fst).Nodup) (hsnd : (fixed.map Prod.snd).Nodup)
    (hrows : ∀ rc ∈ fixed, rc.1 < ro.length)
    (hcols : ∀ rc ∈ fixed, rc.2 < ro.length) :
    (colPerms colFixed ro).Nodup := by
  unfold colPerms
  rw [if_neg (by simp [hne])]
  rw [hbf]
  simp only []
  apply List.Nodup.map_on ?_ (nodup_permutations2 (nodup_free_filter _ _))
  intro p1 hp1 p2 hp2 he
  have hq1 := List.mem_permutations'.mp hp1
  have hq2 := List.mem_permutations'.mp hp2
  have hfrlen : ((List.range ro.length).filter
      (fun r => !((fixed.map Prod.fst).contains r))).length = ro.length - fixed.length := by
    have := length_filter_not_contains ro.length hfst (fun x hx => by
      obtain ⟨rc, hrc, hrc1⟩ := List.mem_map.mp hx
      rw [← hrc1]
      exact hrows rc hrc)
    simpa using this
  have hfclen : ((List.range ro.length).filter
      (fun c => !((fixed.map Prod.snd).contains c))).length = ro.length - fixed.length := by
    have := length_filter_not_contains ro.length hsnd (fun x hx => by
      obtain ⟨rc, hrc, hrc1⟩ := List.mem_map.mp hx
      rw [← hrc1]
      exact hcols rc hrc)
    simpa using this
  have hl1 : ((List.range ro.length).filter
      (fun r => !((fixed.map Prod.fst).contains r))).length = p1.length := by
    have := hq1.length_eq
    omega
  have hl2 : ((List.range ro.length).filter
      (fun r => !((fixed.map Prod.fst).contains r))).length = p2.length := by
    have := hq2.length_eq
    omega
  apply List.ext_getElem (by omega)
  intro j hj1 hj2
  have hjf : j < ((List.range ro.length).filter
      (fun r => !((fixed.map Prod.fst).contains r))).length := by omega
  have hv1 := buildColPerm_getD_free hl1 hjf
  have hv2 := buildColPerm_getD_free hl2 hjf
  rw [he] at hv1
  rw [← List.getD_eq_getElem p1 0 hj1, ← List.getD_eq_getElem p2 0 hj2]
  rw [← hv1, ← hv2]

/-! Leaf evaluation facts. -/

/-- The leaf evaluation accepts exactly the placements passing every clue
whose victim room holds two people. -/
theorem extractSolution_isSome (pz : Puzzle) (ro : List String) (cp : List Nat) :
    (extractSolution pz ro cp).isSome = true ↔
      ((pz.clues.all (fun c => c.eval (GameState.mk ro cp pz.grid)) = true) ∧
        ((GameState.mk ro cp pz.grid).people_in_room
          ((GameState.mk ro cp pz.grid).room_of pz.victim)).length = 2) := by
  cases hall : pz.clues.all (fun c => c.eval (GameState.mk ro cp pz.grid)) with
  | false =>
      simp only [extractSolution, hall]
      simp
  | true =>
      simp only [extractSolution, hall]
      by_cases h2 : ((GameState.mk ro cp pz.grid).people_in_room
          ((GameState.mk ro cp pz.grid).room_of pz.victim)).length = 2 <;>
        simp [h2]

/-- Position, cell and room of the person stored at row j of a
duplicate-free row order. -/
theorem state_facts {pz : Puzzle} {ro : List String} {cp : List Nat}
    (hnd : ro.Nodup) {j : Nat} (hj : j < ro.length) {p : String}
    (hqp : ro.getD j "" = p) :
    (GameState.mk ro cp pz.grid).position p = (j, cp.getD j 0) ∧
    (GameState.mk ro cp pz.grid).cell_of p = pz.grid.cellAt j (cp.getD j 0) ∧
    (GameState.mk ro cp pz.grid).room_of p =
      (pz.grid.cellAt j (cp.getD j 0)).room_id := by
  have hpos : (GameState.mk ro cp pz.grid).position p = (j, cp.getD j 0) :=
    position_eq hnd hj hqp
  have hcof : (GameState.mk ro cp pz.grid).cell_of p = pz.grid.cellAt j (cp.getD j 0) := by
    unfold GameState.cell_of
    rw [hpos]
  refine ⟨hpos, hcof, ?_⟩
  unfold GameState.room_of
  rw [hcof]

/-- Pointwise congruence for any. -/
theorem any_congr {α : Type} {l : List α} {f g : α → Bool}
    (h : ∀ a ∈ l, f a = g a) : l.any f = l.any g := by
  induction l with
  | nil => rfl
  | cons a t ih =>
      simp only [List.any_cons]
      rw [h a (List.mem_cons_self a t), ih (fun x hx => h x (List.mem_cons_of_mem a hx))]

theorem mk_grid (ro : List String) (cp : List Nat) (g : Grid) :
    (GameState.mk ro cp g).grid = g := rfl

/-- A clue passing on a complete placement implies that the subject
person's cell passes the clue's domain filter: the structural filters of
the preprocessor never reject the cell of a satisfying placement. -/
theorem eval_to_srcFilter {pz : Puzzle} {ro : List String} {cp : List Nat}
    (hwf : pz.grid.wf = true) (hnd : ro.Nodup)
    {j : Nat} (hj : j < ro.length) (hjr : j < pz.grid.n_rows)
    (hcj : cp.getD j 0 < pz.grid.n_cols)
    {c : Clue}
    (hok : clueOK pz.people.length pz.people c = true)
    (heval : c.eval (GameState.mk ro cp pz.grid) = true) :
    srcFilterPred pz.grid pz.people (ro.getD j "") c
      (pz.grid.cellAt j (cp.getD j 0)) = true := by
  have hcell := Grid.wf_cellAt hwf hjr hcj
  cases c with
  | at_column p col =>
      simp only [srcFilterPred]
      by_cases hg : ro.getD j "" = p ∧ p ∈ pz.people
      · rw [if_pos hg]
        obtain ⟨hpos, hcof, hroom⟩ := state_facts hnd hj hg.1
        simp only [Clue.eval] at heval
        rw [hpos] at heval
        simp only [decide_eq_true_eq] at heval ⊢
        rw [hcell.2]
        exact heval
      · rw [if_neg hg]
  | in_room p room invert =>
      cases invert with
      | true => rfl
      | false =>
          simp only [srcFilterPred]
          by_cases hg : ro.getD j "" = p ∧ p ∈ pz.people
          · rw [if_pos hg]
            obtain ⟨hpos, hcof, hroom⟩ := state_facts hnd hj hg.1
            simp only [Clue.eval, Bool.false_eq_true, if_false] at heval
            rw [hroom] at heval
            exact heval
          · rw [if_neg hg]
  | on_object p obj invert =>
      simp only [clueOK, Bool.and_eq_true, decide_eq_true_eq] at hok
      cases invert with
      | false =>
          simp only [srcFilterPred]
          by_cases hg : ro.getD j "" = p ∧ p ∈ pz.people
          · rw [if_pos hg]
            obtain ⟨hpos, hcof, hroom⟩ := state_facts hnd hj hg.1
            simp only [Clue.eval, Bool.false_eq_true, if_false] at heval
            rw [hcof] at heval
            rw [objFilterLookup_eq obj hok.2]
            exact heval
          · rw [if_neg hg]
      | true =>
          simp only [srcFilterPred]
          by_cases hg : ro.getD j "" = p ∧ p ∈ pz.people
          · rw [if_pos hg]
            obtain ⟨hpos, hcof, hroom⟩ := state_facts hnd hj hg.1
            simp only [Clue.eval, if_true] at heval
            rw [hcof] at heval
            rw [objFilterLookup_eq obj hok.2]
            exact heval
          · rw [if_neg hg]
  | only_on_object p obj =>
      simp only [clueOK, Bool.and_eq_true, decide_eq_true_eq] at hok
      simp only [srcFilterPred]
      by_cases hg : ro.getD j "" = p ∧ p ∈ pz.people
      · rw [if_pos hg]
        obtain ⟨hpos, hcof, hroom⟩ := state_facts hnd hj hg.1
        simp only [Clue.eval, decide_eq_true_eq] at heval
        have hp : p ∈ (GameState.mk ro cp pz.grid).people_on_object obj := by
          rw [heval]
          exact List.mem_singleton.mpr rfl
        unfold GameState.people_on_object at hp
        have hcond := (List.mem_filter.mp hp).2
        rw [hcof] at hcond
        rw [objFilterLookup_eq obj hok.2]
        exact hcond
      · rw [if_neg hg]
  | next_to_object p obj invert =>
      simp only [clueOK, Bool.and_eq_true, decide_eq_true_eq] at hok
      have hany : ∀ (hg : ro.getD j "" = p ∧ p ∈ pz.people),
          hasNeighborWithObject pz.grid (pz.grid.cellAt j (cp.getD j 0)) (some obj) =
            ((GameState.mk ro cp pz.grid).grid.neighbors
              ((GameState.mk ro cp pz.grid).position p).1
              ((GameState.mk ro cp pz.grid).position p).2).any
              (fun nb => nb.has_object obj &&
                decide (nb.room_id = (GameState.mk ro cp pz.grid).room_of p)) := by
        intro hg
        obtain ⟨hpos, hcof, hroom⟩ := state_facts hnd hj hg.1
        unfold hasNeighborWithObject
        rw [hpos, hroom, mk_grid, hcell.1, hcell.2]
        apply any_congr
        intro nb _
        rw [Bool.and_comm]
        rfl
      cases invert with
      | false =>
          simp only [srcFilterPred]
          by_cases hg : ro.getD j "" = p ∧ p ∈ pz.people
          · rw [if_pos hg]
            simp only [Clue.eval, Bool.false_eq_true, if_false] at heval
            rw [objFilterLookup_eq obj hok.2, hany hg]
            exact heval
          · rw [if_neg hg]
      | true =>
          simp only [srcFilterPred]
          by_cases hg : ro.getD j "" = p ∧ p ∈ pz.people
          · rw [if_pos hg]
            simp only [Clue.eval, if_true] at heval
            rw [objFilterLookup_eq obj hok.2, hany hg]
            exact heval
          · rw [if_neg hg]
  | in_corner p =>
      simp only [srcFilterPred]
      by_cases hg : ro.getD j "" = p ∧ p ∈ pz.people
      · rw [if_pos hg]
        obtain ⟨hpos, hcof, hroom⟩ := state_facts hnd hj hg.1
        simp only [Clue.eval] at heval
        rw [hpos, hroom] at heval
        have heval2 : (seqDirPairs.any fun d =>
            is_wall (d.1.1 + (j : Int)) (d.1.2 + ((cp.getD j 0 : Nat) : Int)) pz.grid
              (pz.grid.cellAt j (cp.getD j 0)).room_id &&
            is_wall (d.2.1 + (j : Int)) (d.2.2 + ((cp.getD j 0 : Nat) : Int)) pz.grid
              (pz.grid.cellAt j (cp.getD j 0)).room_id) = true := heval
        unfold isCorner
        rw [hcell.1, hcell.2, ← heval2]
        apply any_congr
        intro d _
        rw [Int.add_comm (j : Int) d.1.1, Int.add_comm ((cp.getD j 0 : Nat) : Int) d.1.2,
          Int.add_comm (j : Int) d.2.1, Int.add_comm ((cp.getD j 0 : Nat) : Int) d.2.2]
      · rw [if_neg hg]
  | not_next_to_wall p =>
      simp only [srcFilterPred]
      by_cases hg : ro.getD j "" = p ∧ p ∈ pz.people
      · rw [if_pos hg]
        obtain ⟨hpos, hcof, hroom⟩ := state_facts hnd hj hg.1
        simp only [Clue.eval] at heval
        rw [hpos, hroom] at heval
        have heval2 : (!orthoDirs.any fun d =>
            is_wall ((j : Int) + d.1) (((cp.getD j 0 : Nat) : Int) + d.2) pz.grid
              (pz.grid.cellAt j (cp.getD j 0)).room_id) = true := heval
        unfold isInterior
        rw [hcell.1, hcell.2]
        exact heval2
      · rw [if_neg hg]
  | alone_in_room p room =>
      simp only [srcFilterPred]
      by_cases hg : ro.getD j "" = p ∧ p ∈ pz.people
      · rw [if_pos hg]
        obtain ⟨hpos, hcof, hroom⟩ := state_facts hnd hj hg.1
        simp only [Clue.eval] at heval
        by_cases hr : (GameState.mk ro cp pz.grid).room_of p ≠ room
        · rw [if_pos hr] at heval
          exact Bool.noConfusion heval
        · push_neg at hr
          rw [hroom] at hr
          simp only [decide_eq_true_eq]
          exact hr
      · rw [if_neg hg]
  | only_one_person_on obj => rfl
  | below_person p t => rfl
  | above_person p t => rfl
  | alone_with_murderer v => rfl
  | with_person p t invert => cases invert <;> rfl
  | only_with_person p t => rfl
  | left_of p obj dr => rfl
  | same_column_as_object p obj dr => rfl

/-- Unpacked reading of puzzle well-formedness. -/
theorem puzzleOK_unpack {pz : Puzzle} (h : puzzleOK pz = true) :
    pz.grid.wf = true ∧ pz.people.Nodup ∧ pz.victim ∈ pz.people ∧
      pz.grid.n_rows = pz.people.length ∧ pz.grid.n_cols = pz.people.length ∧
      ∀ c ∈ pz.clues, clueOK pz.people.length pz.people c = true := by
  unfold puzzleOK at h
  simp only [Bool.and_eq_true, decide_eq_true_eq, List.all_eq_true] at h
  tauto

/-- Positional reading of the blocked-placement check. -/
theorem blockedPlacement_eq_false (g : Grid) (cp : List Nat) :
    blockedPlacement g cp = false ↔
      ∀ j, j < cp.length → (g.cellAt j (cp.getD j 0)).is_blocked = false := by
  unfold blockedPlacement
  rw [List.any_eq_false]
  constructor
  · intro h j hj
    have hmem : (j, cp.getD j 0) ∈ cp.enum := by
      rw [List.mem_enum_iff_getElem?, List.getElem?_eq_getElem hj,
        List.getD_eq_getElem cp 0 hj]
    have := h (j, cp.getD j 0) hmem
    simpa using this
  · intro h rc hrc
    rw [List.mem_enum_iff_getElem?] at hrc
    have hj : rc.1 < cp.length := by
      cases hlt : Nat.decLt rc.1 cp.length with
      | isTrue ht => exact ht
      | isFalse hf =>
          rw [List.getElem?_eq_none (by omega)] at hrc
          exact Option.noConfusion hrc
    have hv : rc.2 = cp.getD rc.1 0 := by
      rw [List.getElem?_eq_getElem hj] at hrc
      rw [List.getD_eq_getElem cp 0 hj]
      exact (Option.some.inj hrc).symm
    have := h rc.1 hj
    rw [← hv] at this
    simp [this]

/-- A satisfying placement in the sense shared by both solvers: the
columns are a permutation of range n, no person stands on a blocked
cell, and the leaf evaluation accepts. -/
def satCP (pz : Puzzle) (ro : List String) (cp : List Nat) : Prop :=
  List.Perm cp (List.range pz.people.length) ∧
    blockedPlacement pz.grid cp = false ∧
    (extractSolution pz ro cp).isSome = true

/-- The complete column assignments the backtracking search keeps (leaf
reached, leaf evaluation accepting) are exactly the satisfying
placements. -/
theorem bt_kept_iff (pz : Puzzle) (ro : List String) (cp : List Nat)
    (hok : puzzleOK pz = true) (hnd : ro.Nodup)
    (hlen : ro.length = pz.people.length) :
    (cp ∈ btGo (puzzleCandCols pz) ro pz.people.length 0 [] [] ∧
      (extractSolution pz ro cp).isSome = true) ↔ satCP pz ro cp := by
  obtain ⟨hwf, hndp, hvict, hr, hc, hclues⟩ := puzzleOK_unpack hok
  constructor
  · rintro ⟨hmem, hsome⟩
    obtain ⟨hcplen, hvalid⟩ := (mem_btGo_top _ _ _ _).mp hmem
    have hnodup : cp.Nodup := validExt_nodup _ _ hvalid
    have hvi := (validExt_iff (puzzleCandCols pz) ro cp 0 []).mp hvalid
    have hcellfact : ∀ j, j < cp.length →
        cp.getD j 0 < pz.grid.n_cols ∧
          (pz.grid.cellAt j (cp.getD j 0)).is_blocked = false := by
      intro j hj
      have h1 := (hvi j hj).1
      rw [Nat.zero_add] at h1
      unfold puzzleCandCols at h1
      obtain ⟨cell, hcand, hrow, hcol⟩ := (mem_candidateCols _ _ _ _).mp h1
      rw [buildCandidates_eq, List.mem_filter] at hcand
      have hvc := (mem_valid_cells pz.grid cell).mp hcand.1
      obtain ⟨hrlt, hclt, hcellE⟩ := all_cells_eq_cellAt hwf hvc.1
      rw [hrow, hcol] at hcellE
      constructor
      · rw [← hcol]
        exact hclt
      · rw [hcellE]
        exact hvc.2
    refine ⟨?_, ?_, hsome⟩
    · apply perm_range_of_nodup_lt hcplen hnodup
      intro x hx
      obtain ⟨j, hj, hje⟩ := exists_getD_of_mem_nat hx
      rw [← hje, ← hc]
      exact (hcellfact j hj).1
    · exact (blockedPlacement_eq_false pz.grid cp).mpr
        (fun j hj => (hcellfact j hj).2)
  · rintro ⟨hperm, hblock, hsome⟩
    have hcplen : cp.length = pz.people.length := by simpa using hperm.length_eq
    have hnodup : cp.Nodup := hperm.nodup_iff.mpr (List.nodup_range _)
    have hlt : ∀ x ∈ cp, x < pz.people.length := fun x hx =>
      List.mem_range.mp (hperm.mem_iff.mp hx)
    refine ⟨?_, hsome⟩
    rw [mem_btGo_top]
    refine ⟨hcplen, ?_⟩
    rw [validExt_iff]
    intro j hj
    have hjr : j < pz.grid.n_rows := by rw [hr]; omega
    have hcj : cp.getD j 0 < pz.grid.n_cols := by
      rw [hc]; exact hlt _ (getD_mem hj)
    have hjro : j < ro.length := by omega
    have hev := ((extractSolution_isSome pz ro cp).mp hsome).1
    refine ⟨?_, ?_, ?_⟩
    · rw [Nat.zero_add]
      unfold puzzleCandCols
      rw [mem_candidateCols]
      refine ⟨pz.grid.cellAt j (cp.getD j 0), ?_,
        (Grid.wf_cellAt hwf hjr hcj).1, (Grid.wf_cellAt hwf hjr hcj).2⟩
      rw [buildCandidates_eq, List.mem_filter]
      constructor
      · rw [mem_valid_cells]
        exact ⟨cellAt_mem_all_cells pz.grid hjr hcj,
          (blockedPlacement_eq_false pz.grid cp).mp hblock j hj⟩
      · rw [List.all_eq_true]
        intro c hcm
        exact eval_to_srcFilter hwf hnd hjro hjr hcj (hclues c hcm)
          (List.all_eq_true.mp hev c hcm)
    · exact List.not_mem_nil _
    · intro j2 hj2 he
      have : j2 = j := nodup_getD_inj hnodup (by omega) (by omega) he
      omega

/-- Facts about the fixed assignment a row order demands through the
at_column dictionary of a well-formed puzzle: rows are distinct and in
range, and the demanded columns are in range. -/
theorem specFixed_facts (pz : Puzzle) (ro : List String)
    (hok : puzzleOK pz = true) (hlen : ro.length = pz.people.length) :
    ((specFixedFrom (parseConstraints pz.clues).2.2 ro 0).map Prod.fst).Nodup ∧
    (∀ rc ∈ specFixedFrom (parseConstraints pz.clues).2.2 ro 0, rc.1 < ro.length) ∧
    (∀ rc ∈ specFixedFrom (parseConstraints pz.clues).2.2 ro 0, rc.2 < ro.length) := by
  obtain ⟨hwf, hndp, hvict, hr, hc, hclues⟩ := puzzleOK_unpack hok
  refine ⟨specFixedFrom_rows_nodup _ ro 0, ?_, ?_⟩
  · intro rc hrc
    obtain ⟨j, hj, hrq, hd⟩ := (mem_specFixedFrom _ ro 0 rc.1 rc.2).mp
      (show (rc.1, rc.2) ∈ specFixedFrom (parseConstraints pz.clues).2.2 ro 0 from by
        rw [Prod.mk.eta]; exact hrc)
    omega
  · intro rc hrc
    obtain ⟨j, hj, hrq, hd⟩ := (mem_specFixedFrom _ ro 0 rc.1 rc.2).mp
      (show (rc.1, rc.2) ∈ specFixedFrom (parseConstraints pz.clues).2.2 ro 0 from by
        rw [Prod.mk.eta]; exact hrc)
    have hmem := dictLookup_mem hd
    rw [parseConstraints_colFixed] at hmem
    have hcl := (mem_colFixedOf pz.clues _ _).mp hmem
    have hco := hclues _ hcl
    simp only [clueOK, Bool.and_eq_true, decide_eq_true_eq] at hco
    omega

/-- On a placement the leaf evaluation accepts, every column the
at_column dictionary demands of the row order is honoured. -/
theorem sat_fix (pz : Puzzle) (ro : List String) (cp : List Nat)
    (hnd : ro.Nodup)
    (hsome : (extractSolution pz ro cp).isSome = true) :
    ∀ rc ∈ specFixedFrom (parseConstraints pz.clues).2.2 ro 0,
      cp.getD rc.1 0 = rc.2 := by
  intro rc hrc
  obtain ⟨j, hj, hrq, hd⟩ := (mem_specFixedFrom _ ro 0 rc.1 rc.2).mp
    (show (rc.1, rc.2) ∈ specFixedFrom (parseConstraints pz.clues).2.2 ro 0 from by
      rw [Prod.mk.eta]; exact hrc)
  have hmem := dictLookup_mem hd
  rw [parseConstraints_colFixed] at hmem
  have hcl := (mem_colFixedOf pz.clues _ _).mp hmem
  have hev := ((extractSolution_isSome pz ro cp).mp hsome).1
  have heval := List.all_eq_true.mp hev _ hcl
  simp only [Clue.eval, decide_eq_true_eq] at heval
  obtain ⟨hpos, hcof, hroom⟩ := @state_facts pz ro cp hnd j hj _ rfl
  rw [hpos] at heval
  have hgd : cp.getD j 0 = rc.2 := heval
  rw [hrq, Nat.zero_add]
  exact hgd

/-- Inversion of a successful fixed-assignment pass. -/
theorem buildFixed_some_inv {colFixed : List (String × Nat)} {ro : List String}
    {fixed : List (Nat × Nat)}
    (hbf : buildFixed colFixed ro = some fixed) :
    fixed = specFixedFrom colFixed ro 0 ∧
      ((specFixedFrom colFixed ro 0).map Prod.snd).Nodup := by
  rw [buildFixed_eq] at hbf
  by_cases hsnd : ((specFixedFrom colFixed ro 0).map Prod.snd).Nodup
  · rw [if_pos hsnd] at hbf
    exact ⟨(Option.some.inj hbf).symm, hsnd⟩
  · rw [if_neg hsnd] at hbf
    exact Option.noConfusion hbf

/-- The column permutations the brute-force solver keeps (generated,
non-blocked, leaf evaluation accepting) are exactly the satisfying
placements. -/
theorem bf_kept_iff (pz : Puzzle) (ro : List String) (cp : List Nat)
    (hok : puzzleOK pz = true) (hnd : ro.Nodup)
    (hlen : ro.length = pz.people.length) :
    (cp ∈ colPerms (parseConstraints pz.clues).2.2 ro ∧
      blockedPlacement pz.grid cp = false ∧
      (extractSolution pz ro cp).isSome = true) ↔ satCP pz ro cp := by
  obtain ⟨hfst, hrows, hcols⟩ := specFixed_facts pz ro hok hlen
  by_cases hcf : (parseConstraints pz.clues).2.2 = []
  · rw [hcf]
    constructor
    · rintro ⟨hmem, hblock, hsome⟩
      refine ⟨?_, hblock, hsome⟩
      have hp := (mem_colPerms_nil ro cp).mp hmem
      rw [hlen] at hp
      exact hp
    · rintro ⟨hperm, hblock, hsome⟩
      refine ⟨?_, hblock, hsome⟩
      rw [mem_colPerms_nil, hlen]
      exact hperm
  · constructor
    · rintro ⟨hmem, hblock, hsome⟩
      refine ⟨?_, hblock, hsome⟩
      cases hbf : buildFixed (parseConstraints pz.clues).2.2 ro with
      | none =>
          rw [colPerms_none hcf hbf] at hmem
          exact absurd hmem (List.not_mem_nil cp)
      | some fixed =>
          obtain ⟨hfeq, hsnd⟩ := buildFixed_some_inv hbf
          subst hfeq
          have hp := ((mem_colPerms_some hcf hbf hfst hsnd hrows hcols cp).mp hmem).1
          rw [hlen] at hp
          exact hp
    · rintro ⟨hperm, hblock, hsome⟩
      refine ⟨?_, hblock, hsome⟩
      have hfix := sat_fix pz ro cp hnd hsome
      have hcplen : cp.length = ro.length := by
        have := hperm.length_eq
        simp only [List.length_range] at this
        omega
      have hnodupcp : cp.Nodup := hperm.nodup_iff.mpr (List.nodup_range _)
      have hsnd : ((specFixedFrom (parseConstraints pz.clues).2.2 ro 0).map
          Prod.snd).Nodup := by
        apply List.Nodup.map_on ?_ hfst.of_map
        intro rc1 h1 rc2 h2 he
        have e1 := hfix rc1 h1
        have e2 := hfix rc2 h2
        have hre : rc1.1 = rc2.1 := by
          apply nodup_getD_inj hnodupcp
            (by rw [hcplen]; exact hrows rc1 h1)
            (by rw [hcplen]; exact hrows rc2 h2)
          rw [e1, e2, he]
        exact Prod.ext hre he
      have hbf : buildFixed (parseConstraints pz.clues).2.2 ro =
          some (specFixedFrom (parseConstraints pz.clues).2.2 ro 0) := by
        rw [buildFixed_eq, if_pos hsnd]
      rw [mem_colPerms_some hcf hbf hfst hsnd hrows hcols cp]
      refine ⟨?_, hfix⟩
      rw [hlen]
      exact hperm

/-- The generated column permutations never repeat, for a well-formed
puzzle. -/
theorem nodup_colPerms (pz : Puzzle) (ro : List String)
    (hok : puzzleOK pz = true) (hlen : ro.length = pz.people.length) :
    (colPerms (parseConstraints pz.clues).2.2 ro).Nodup := by
  obtain ⟨hfst, hrows, hcols⟩ := specFixed_facts pz ro hok hlen
  by_cases hcf : (parseConstraints pz.clues).2.2 = []
  · rw [hcf]
    exact nodup_colPerms_nil ro
  · cases hbf : buildFixed (parseConstraints pz.clues).2.2 ro with
    | none =>
        rw [colPerms_none hcf hbf]
        exact List.nodup_nil
    | some fixed =>
        obtain ⟨hfeq, hsnd⟩ := buildFixed_some_inv hbf
        subst hfeq
        exact nodup_colPerms_some hcf hbf hfst hsnd hrows hcols

/-- filterMap only consumes elements on which the function succeeds. -/
theorem filterMap_eq_filter_isSome {α β : Type} (f : α → Option β) :
    ∀ (l : List α), l.filterMap f = (l.filter (fun a => (f a).isSome)).filterMap f := by
  intro l
  induction l with
  | nil => rfl
  | cons a l ih =>
      cases hf : f a with
      | none =>
          rw [List.filterMap_cons_none hf, List.filter_cons]
          simp only [hf, Option.isSome_none, Bool.false_eq_true, if_false]
          exact ih
      | some b =>
          rw [List.filterMap_cons_some hf, List.filter_cons]
          simp only [hf, Option.isSome_some, if_true]
          rw [List.filterMap_cons_some hf, ih]

/-- Pointwise permutation congruence for flatMap. -/
theorem flatMap_perm_congr {α β : Type} {l : List α} {f g : α → List β}
    (h : ∀ a ∈ l, List.Perm (f a) (g a)) :
    List.Perm (l.flatMap f) (l.flatMap g) := by
  induction l with
  | nil => simp
  | cons a l ih =>
      simp only [List.flatMap_cons]
      exact (h a (List.mem_cons_self a l)).append
        (ih (fun b hb => h b (List.mem_cons_of_mem a hb)))

/-- The top-level backtracking call carries an empty prefix. -/
theorem btGo_top_eq (cand : String → Nat → List Nat) (ro : List String) (n : Nat) :
    btGo cand ro n 0 [] [] = btExts cand ro n 0 [] := by
  rw [btGo_eq_map]
  simp

/-- The two solvers discover the same multiset of solutions on a
well-formed puzzle. -/
theorem found_perm (pz : Puzzle) (hok : puzzleOK pz = true) :
    List.Perm (bfFound pz) (btFound pz) := by
  obtain ⟨hwf, hndp, hvict, hr, hc, hclues⟩ := puzzleOK_unpack hok
  simp only [bfFound, btFound]
  apply flatMap_perm_congr
  intro ro hro
  rw [List.mem_filter] at hro
  have hrp : List.Perm ro pz.people := List.mem_permutations'.mp hro.1
  have hnd : ro.Nodup := hrp.nodup_iff.mpr hndp
  have hlen : ro.length = pz.people.length := hrp.length_eq
  rw [filterMap_eq_filter_isSome (extractSolution pz ro)
      ((colPerms (parseConstraints pz.clues).2.2 ro).filter
        (fun cp => !blockedPlacement pz.grid cp)),
    filterMap_eq_filter_isSome (extractSolution pz ro)
      (btGo (puzzleCandCols pz) ro pz.people.length 0 [] [])]
  apply List.Perm.filterMap
  have hnd1 : (((colPerms (parseConstraints pz.clues).2.2 ro).filter
      (fun cp => !blockedPlacement pz.grid cp)).filter
      (fun cp => (extractSolution pz ro cp).isSome)).Nodup :=
    ((nodup_colPerms pz ro hok hlen).filter _).filter _
  have hnd2 : ((btGo (puzzleCandCols pz) ro pz.people.length 0 [] []).filter
      (fun cp => (extractSolution pz ro cp).isSome)).Nodup := by
    rw [btGo_top_eq]
    exact (nodup_btExts (puzzleCandCols pz) ro
      (fun p i => List.nodup_dedup _) pz.people.length 0 []).filter _
  apply (List.perm_ext_iff_of_nodup hnd1 hnd2).mpr
  intro cp
  rw [List.mem_filter, List.mem_filter, List.mem_filter]
  constructor
  · rintro ⟨⟨hm, hb⟩, hs⟩
    have hsat := (bf_kept_iff pz ro cp hok hnd hlen).mp
      ⟨hm, by simpa using hb, hs⟩
    have hbt := (bt_kept_iff pz ro cp hok hnd hlen).mpr hsat
    exact ⟨hbt.1, hbt.2⟩
  · rintro ⟨hm, hs⟩
    have hsat := (bt_kept_iff pz ro cp hok hnd hlen).mp ⟨hm, hs⟩
    obtain ⟨hmem, hb, hs2⟩ := (bf_kept_iff pz ro cp hok hnd hlen).mpr hsat
    exact ⟨⟨hmem, by simpa using hb⟩, hs2⟩

/-- The result classifier agrees on permuted discovery lists. -/
theorem finalize_resultsAgree {l1 l2 : List Solution} (h : List.Perm l1 l2) :
    resultsAgree (finalize l1) (finalize l2) := by
  cases l1 with
  | nil =>
      rw [← h.nil_eq]
      exact trivial
  | cons s1 t1 =>
      cases t1 with
      | nil =>
          rw [List.perm_singleton.mp h.symm]
          rfl
      | cons s2 t2 =>
          have hlen := h.length_eq
          cases l2 with
          | nil => simp at hlen
          | cons u1 v1 =>
              cases v1 with
              | nil => simp at hlen
              | cons u2 v2 =>
                  show List.Perm ((s1 :: s2 :: t2).map Solution.payload)
                    ((u1 :: u2 :: v2).map Solution.payload)
                  exact h.map Solution.payload

/-- C1 (amended): on every well-formed puzzle — coherent square grid
whose side is the number of people, duplicate-free people containing the
victim, and well-formed clues — the brute-force and backtracking solvers
agree: they return the same unique solution, both report no solution, or
both report multiple solutions with the same multiset of discovered
placements. -/
theorem c1_solvers_agree (pz : Puzzle) (hok : puzzleOK pz = true) :
    resultsAgree (bfSolve pz) (btSolve pz) :=
  finalize_resultsAgree (found_perm pz hok)

/-- Witness for the amended C1 on the clue-free 2 by 2 puzzle. -/
theorem c1_witness :
    puzzleOK exPuzzle2x2 = true ∧
      resultsAgree (bfSolve exPuzzle2x2) (btSolve exPuzzle2x2) :=
  ⟨by decide, c1_solvers_agree exPuzzle2x2 (by decide)⟩

end Murdoku
